import Mathlib

/-!
Verification of the route-graph layout and timeline-derivation core of the
travel-advisory demo app.

The development shallowly embeds, as executable Lean functions over lists:

* `reorderNodes` — the client-side topological reordering of route nodes
  (Kahn's algorithm with a restart-from-first-unvisited fallback),
  from the SmartRoute component;
* `parseDurationToMinutes`, `formatTime`, `nodeTimeline` — the timeline
  estimator of the same component;
* `mapItems` — the greedy spatial clustering of map pins from the
  SafetyMap component.

JavaScript `Map`s keyed by numbers are embedded as total functions
`Int → _` with the source's `get(k) || default` default value; the
`while` loop of the Kahn traversal is embedded with an explicit fuel
argument (`reorderFuel`), and fuel sufficiency is proved
(`reorderNodes_sound`), so every theorem about `reorderNodes` speaks
about the loop run to natural completion.  JavaScript numbers appearing
in duration arithmetic are embedded as exact rationals.
-/

namespace Golue

/-- Category tag of a route node (`RouteNode.type` in the source). -/
inductive NodeType where
  | FOOD | SCENERY | HOTEL | OTHER
deriving DecidableEq, Repr

/-- `RouteNode` from `types.ts`: a stop of an AI-generated itinerary. -/
structure RouteNode where
  id : Int
  name : String
  description : String
  type : NodeType
  estimatedStay : Option String
deriving DecidableEq, Repr

/-- Transport mode of a route edge. -/
inductive TransportMode where
  | WALK | TAXI | BUS | SUBWAY
deriving DecidableEq, Repr

/-- `RouteEdge` from `types.ts`: a transit leg between two node ids. -/
structure RouteEdge where
  «from» : Int
  «to» : Int
  transportMode : TransportMode
  duration : String
  distance : String
  details : Option String
deriving DecidableEq, Repr

/-- `RoutePlan` from `types.ts`. -/
structure RoutePlan where
  title : String
  nodes : List RouteNode
  edges : List RouteEdge
deriving DecidableEq, Repr

/-- Pointwise update of a total function embedding of a JS `Map`
(`map.set(k, v)`). -/
def updFn {α : Type} (f : Int → α) (k : Int) (v : α) : Int → α :=
  fun x => if x = k then v else f x

/-- The `nodeById` map of `reorderNodes`:
`new Map(originalNodes.map(n => [n.id, n]))`.  A duplicated id keeps the
last entry, hence the lookup scans the reversed list. -/
def nodeById (ns : List RouteNode) (i : Int) : Option RouteNode :=
  ns.reverse.find? (fun n => decide (n.id = i))

/-- The `adjacency` map of `reorderNodes`: for each edge,
`adjacency.get(e.from).push(e.«to»)`, with `[]` as default. -/
def buildAdjacency (es : List RouteEdge) : Int → List Int :=
  es.foldl (fun adj e => updFn adj e.«from» (adj e.«from» ++ [e.«to»])) (fun _ => [])

/-- The `inDegree` map of `reorderNodes`: node ids start at `0` (the
map's `get(k) || 0` default makes the explicit initialisation loop a
no-op in this embedding) and each edge does
`inDegree.set(e.«to», (inDegree.get(e.«to») || 0) + 1)`. -/
def buildInDegree (es : List RouteEdge) : Int → Int :=
  es.foldl (fun deg e => updFn deg e.«to» (deg e.«to» + 1)) (fun _ => 0)

/-- Initial queue of `reorderNodes`: ids of the zero-in-degree nodes in
input order. -/
def initialQueue (ns : List RouteNode) (deg : Int → Int) : List Int :=
  (ns.filter (fun n => decide (deg n.id = 0))).map (fun n => n.id)

/-- The neighbour loop of one visit in `reorderNodes`: for each
out-neighbour, decrement its in-degree and enqueue it when the new
degree is exactly `0`.  Returns the grown queue and the updated degree
map. -/
def processNeighbors : List Int → List Int → (Int → Int) → List Int × (Int → Int)
  | [], q, deg => (q, deg)
  | nb :: rest, q, deg =>
    let d := deg nb - 1
    processNeighbors rest (if d = 0 then q ++ [nb] else q) (updFn deg nb d)

/-- The `while (sortedNodes.length < originalNodes.length)` loop of
`reorderNodes`, with explicit fuel.  One fuel unit is one iteration of
the source loop; within a single iteration an empty queue is refilled
with the first unvisited node (or the loop breaks), then the head of
the queue is popped and either skipped (already visited) or visited. -/
def kahnLoop (ns : List RouteNode) (adj : Int → List Int) :
    Nat → List RouteNode → List Int → List Int → (Int → Int) → List RouteNode
  | 0, sorted, _, _, _ => sorted
  | fuel + 1, sorted, visited, queue, deg =>
    if sorted.length < ns.length then
      match (match queue with
             | [] =>
               match ns.find? (fun n => decide (n.id ∉ visited)) with
               | some n => [n.id]
               | none => []
             | _ => queue) with
      | [] => sorted
      | c :: rest =>
        if c ∈ visited then
          kahnLoop ns adj fuel sorted visited rest deg
        else
          kahnLoop ns adj fuel
            (match nodeById ns c with
             | some nd => sorted ++ [nd]
             | none => sorted)
            (c :: visited)
            (processNeighbors (adj c) rest deg).1
            (processNeighbors (adj c) rest deg).2
    else sorted

/-- Fuel sufficient to run the Kahn loop to natural completion: every
iteration pops one queue element, and at most `|ns|` seeds, `|ns|`
fallback restarts and `|es|` neighbour enqueues ever enter the queue. -/
def reorderFuel (ns : List RouteNode) (es : List RouteEdge) : Nat :=
  2 * ns.length + es.length + 1

/-- `reorderNodes` from the SmartRoute component: Kahn's algorithm over
the node/edge lists, with the restart fallback. -/
def reorderNodes (ns : List RouteNode) (es : List RouteEdge) : List RouteNode :=
  kahnLoop ns (buildAdjacency es) (reorderFuel ns es) [] []
    (initialQueue ns (buildInDegree es)) (buildInDegree es)

/-- The state reached after popping an unvisited id `c`: emit the node
(if `c` names one), mark it visited, process its out-neighbours, and
continue the loop. -/
def kahnVisit (ns : List RouteNode) (adj : Int → List Int) (fuel : Nat)
    (sorted : List RouteNode) (visited : List Int) (c : Int) (rest : List Int)
    (deg : Int → Int) : List RouteNode :=
  kahnLoop ns adj fuel
    (match nodeById ns c with
     | some nd => sorted ++ [nd]
     | none => sorted)
    (c :: visited)
    (processNeighbors (adj c) rest deg).1
    (processNeighbors (adj c) rest deg).2

section BasicLemmas

variable {α : Type}

theorem updFn_apply (f : Int → α) (k : Int) (v : α) (x : Int) :
    updFn f k v x = if x = k then v else f x := rfl

theorem foldAdj_apply (es : List RouteEdge) (acc : Int → List Int) (c : Int) :
    (es.foldl (fun adj e => updFn adj e.«from» (adj e.«from» ++ [e.«to»])) acc) c
      = acc c ++ (es.filter (fun e => decide (e.«from» = c))).map (fun e => e.«to») := by
  induction es generalizing acc with
  | nil => simp
  | cons e es ih =>
    simp only [List.foldl_cons, List.filter_cons]
    rw [ih]
    by_cases h : e.«from» = c
    · simp [updFn, h]
    · have h' : ¬ c = e.«from» := fun hc => h hc.symm
      simp [updFn, h, h']

theorem buildAdjacency_eq (es : List RouteEdge) (c : Int) :
    buildAdjacency es c
      = (es.filter (fun e => decide (e.«from» = c))).map (fun e => e.«to») := by
  simpa using foldAdj_apply es (fun _ => []) c

theorem foldDeg_apply (es : List RouteEdge) (acc : Int → Int) (v : Int) :
    (es.foldl (fun deg e => updFn deg e.«to» (deg e.«to» + 1)) acc) v
      = acc v + ((es.filter (fun e => decide (e.«to» = v))).length : Int) := by
  induction es generalizing acc with
  | nil => simp
  | cons e es ih =>
    simp only [List.foldl_cons, List.filter_cons]
    rw [ih]
    by_cases h : e.«to» = v
    · simp [updFn, h]; ring
    · have h' : ¬ v = e.«to» := fun hc => h hc.symm
      simp [updFn, h, h']

theorem buildInDegree_eq (es : List RouteEdge) (v : Int) :
    buildInDegree es v = ((es.filter (fun e => decide (e.«to» = v))).length : Int) := by
  simpa using foldDeg_apply es (fun _ => 0) v

theorem buildInDegree_nonneg (es : List RouteEdge) (v : Int) :
    0 ≤ buildInDegree es v := by
  rw [buildInDegree_eq]; positivity

theorem nodeById_id {ns : List RouteNode} {i : Int} {n : RouteNode}
    (h : nodeById ns i = some n) : n.id = i := by
  have := List.find?_some h
  simpa using this

theorem nodeById_mem {ns : List RouteNode} {i : Int} {n : RouteNode}
    (h : nodeById ns i = some n) : n ∈ ns := by
  have := List.mem_of_find?_eq_some h
  simpa using this

theorem nodeById_eq_none_iff {ns : List RouteNode} {i : Int} :
    nodeById ns i = none ↔ i ∉ ns.map (fun n => n.id) := by
  unfold nodeById
  rw [List.find?_eq_none]
  constructor
  · intro h hi
    rcases List.mem_map.1 hi with ⟨n, hn, hid⟩
    exact absurd (of_decide_eq_true (by simpa using h n (List.mem_reverse.2 hn))) (by simp [hid])
  · intro h n hn
    simp only [decide_eq_true_eq]
    intro hid
    exact h (List.mem_map.2 ⟨n, List.mem_reverse.1 hn, hid⟩)

theorem nodeById_isSome {ns : List RouteNode} {i : Int}
    (h : i ∈ ns.map (fun n => n.id)) : ∃ n, nodeById ns i = some n := by
  rcases ho : nodeById ns i with _ | n
  · exact absurd h (nodeById_eq_none_iff.1 ho)
  · exact ⟨n, rfl⟩

theorem nodeById_of_nodup {ns : List RouteNode} {n : RouteNode}
    (hnd : (ns.map (fun n => n.id)).Nodup) (hn : n ∈ ns) :
    nodeById ns n.id = some n := by
  rcases nodeById_isSome (List.mem_map.2 ⟨n, hn, rfl⟩) with ⟨m, hm⟩
  have hmem : m ∈ ns := nodeById_mem hm
  have hid : m.id = n.id := nodeById_id hm
  have heq := List.inj_on_of_nodup_map hnd hmem hn hid
  exact hm.trans (congrArg some heq)

theorem count_cons_int (v b : Int) (l : List Int) :
    (b :: l).count v = l.count v + (if v = b then 1 else 0) := by
  by_cases h : v = b <;> simp [List.count_cons, h]

theorem processNeighbors_deg (l : List Int) (q : List Int) (deg : Int → Int) :
    (processNeighbors l q deg).2 = fun v => deg v - (l.count v : Int) := by
  induction l generalizing q deg with
  | nil => funext v; simp [processNeighbors]
  | cons nb rest ih =>
    simp only [processNeighbors]
    rw [ih]
    funext v
    rw [count_cons_int]
    by_cases h : v = nb
    · rw [updFn_apply, if_pos h, if_pos h, h]
      push_cast
      ring
    · rw [updFn_apply, if_neg h, if_neg h]
      push_cast
      ring

theorem processNeighbors_queue_append (l : List Int) (q₁ q₂ : List Int) (deg : Int → Int) :
    (processNeighbors l (q₁ ++ q₂) deg).1 = q₁ ++ (processNeighbors l q₂ deg).1 := by
  induction l generalizing q₂ deg with
  | nil => simp [processNeighbors]
  | cons nb rest ih =>
    simp only [processNeighbors]
    by_cases h : deg nb - 1 = 0
    · simp only [if_pos h, List.append_assoc]
      exact ih (q₂ ++ [nb]) (updFn deg nb (deg nb - 1))
    · simp only [if_neg h]
      exact ih q₂ (updFn deg nb (deg nb - 1))

/-- Ids enqueued by the neighbour loop, over an initially empty queue. -/
def pushes (l : List Int) (deg : Int → Int) : List Int :=
  (processNeighbors l [] deg).1

theorem processNeighbors_queue (l q : List Int) (deg : Int → Int) :
    (processNeighbors l q deg).1 = q ++ pushes l deg := by
  simpa using processNeighbors_queue_append l q [] deg

theorem pushes_cons (nb : Int) (rest : List Int) (deg : Int → Int) :
    pushes (nb :: rest) deg
      = (if deg nb - 1 = 0 then [nb] else [])
          ++ pushes rest (updFn deg nb (deg nb - 1)) := by
  show (processNeighbors (nb :: rest) [] deg).1 = _
  simp only [processNeighbors]
  by_cases h : deg nb - 1 = 0
  · rw [if_pos h, if_pos h, processNeighbors_queue]
    simp
  · rw [if_neg h, if_neg h, processNeighbors_queue]

theorem pushes_subset (l : List Int) (deg : Int → Int) :
    ∀ x ∈ pushes l deg, x ∈ l := by
  induction l generalizing deg with
  | nil => simp [pushes, processNeighbors]
  | cons nb rest ih =>
    intro x hx
    rw [pushes_cons] at hx
    rcases List.mem_append.1 hx with h | h
    · have hxeq : x = nb := by
        by_cases hz : deg nb - 1 = 0
        · simpa [hz] using h
        · simp [hz] at h
      rw [hxeq]
      exact List.mem_cons_self _ _
    · exact List.mem_cons_of_mem _ (ih _ _ h)

theorem pushes_length (l : List Int) (deg : Int → Int) :
    (pushes l deg).length ≤ l.length := by
  induction l generalizing deg with
  | nil => simp [pushes, processNeighbors]
  | cons nb rest ih =>
    rw [pushes_cons]
    by_cases h : deg nb - 1 = 0
    · simpa [h] using ih (updFn deg nb (deg nb - 1))
    · simp only [if_neg h, List.nil_append, List.length_cons]
      exact le_trans (ih (updFn deg nb (deg nb - 1))) (Nat.le_succ _)

theorem pushes_mem_iff (l : List Int) (deg : Int → Int)
    (hdeg : ∀ v, (l.count v : Int) ≤ deg v) (x : Int) :
    x ∈ pushes l deg ↔ x ∈ l ∧ deg x = (l.count x : Int) := by
  induction l generalizing deg with
  | nil => simp [pushes, processNeighbors]
  | cons nb rest ih =>
    have hdeg' : ∀ v, (rest.count v : Int) ≤ updFn deg nb (deg nb - 1) v := by
      intro v
      have h0 := hdeg v
      rw [count_cons_int] at h0
      by_cases h : v = nb
      · rw [updFn_apply, if_pos h, h]
        rw [if_pos h] at h0
        rw [h] at h0
        push_cast at h0 ⊢
        omega
      · rw [updFn_apply, if_neg h]
        rw [if_neg h] at h0
        push_cast at h0 ⊢
        omega
    rw [pushes_cons, List.mem_append, ih _ hdeg']
    constructor
    · rintro (hx | ⟨hxr, he⟩)
      · have hpair : deg nb - 1 = 0 ∧ x = nb := by
          by_cases h : deg nb - 1 = 0
          · refine ⟨h, by simpa [h] using hx⟩
          · simp [h] at hx
        obtain ⟨hz, hxeq⟩ := hpair
        have hc0 : (rest.count nb : Int) = 0 := by
          have h1 := hdeg' nb
          rw [updFn_apply, if_pos rfl] at h1
          have h2 : (0 : Int) ≤ (rest.count nb : Int) := Int.ofNat_nonneg _
          omega
        refine ⟨by rw [hxeq]; exact List.mem_cons_self _ _, ?_⟩
        rw [count_cons_int, if_pos hxeq, hxeq]
        push_cast at hc0 ⊢
        omega
      · by_cases hxnb : x = nb
        · rw [updFn_apply, if_pos hxnb] at he
          rw [hxnb] at he
          refine ⟨by rw [hxnb]; exact List.mem_cons_self _ _, ?_⟩
          rw [count_cons_int, if_pos hxnb, hxnb]
          push_cast at he ⊢
          omega
        · rw [updFn_apply, if_neg hxnb] at he
          refine ⟨List.mem_cons_of_mem _ hxr, ?_⟩
          rw [count_cons_int, if_neg hxnb]
          push_cast at he ⊢
          omega
    · rintro ⟨hxmem, he⟩
      by_cases hxnb : x = nb
      · rw [count_cons_int, if_pos hxnb, hxnb] at he
        by_cases hc : rest.count nb = 0
        · left
          have hz : deg nb - 1 = 0 := by
            rw [hc] at he
            push_cast at he ⊢
            omega
          rw [if_pos hz, hxnb]
          simp
        · right
          refine ⟨?_, ?_⟩
          · rw [hxnb]
            exact List.count_pos_iff.1 (Nat.pos_of_ne_zero hc)
          · rw [updFn_apply, if_pos hxnb, hxnb]
            push_cast at he ⊢
            omega
      · rcases List.mem_cons.1 hxmem with h' | h'
        · exact absurd h' hxnb
        · right
          refine ⟨h', ?_⟩
          rw [updFn_apply, if_neg hxnb]
          rw [count_cons_int, if_neg hxnb] at he
          push_cast at he ⊢
          omega

end BasicLemmas

section KahnEquations

variable {ns : List RouteNode} {adj : Int → List Int} {fuel : Nat}
  {sorted : List RouteNode} {visited queue rest : List Int} {deg : Int → Int}
  {c : Int} {n : RouteNode}

theorem kahnLoop_zero :
    kahnLoop ns adj 0 sorted visited queue deg = sorted := rfl

theorem kahnLoop_cons :
    kahnLoop ns adj (fuel + 1) sorted visited (c :: rest) deg
      = if sorted.length < ns.length then
          (if c ∈ visited then kahnLoop ns adj fuel sorted visited rest deg
           else kahnVisit ns adj fuel sorted visited c rest deg)
        else sorted := rfl

theorem kahnLoop_nil :
    kahnLoop ns adj (fuel + 1) sorted visited [] deg
      = if sorted.length < ns.length then
          (match ns.find? (fun n => decide (n.id ∉ visited)) with
           | none => sorted
           | some n =>
             if n.id ∈ visited then kahnLoop ns adj fuel sorted visited [] deg
             else kahnVisit ns adj fuel sorted visited n.id [] deg)
        else sorted := by
  by_cases h : sorted.length < ns.length
  · rw [if_pos h]
    cases hf : ns.find? (fun n => decide (n.id ∉ visited)) with
    | none =>
      show (if sorted.length < ns.length then _ else _) = _
      rw [if_pos h]
      rw [hf]
    | some m =>
      show (if sorted.length < ns.length then _ else _) = _
      rw [if_pos h]
      rw [hf]
      rfl
  · rw [if_neg h]
    show (if sorted.length < ns.length then _ else _) = _
    rw [if_neg h]

theorem kahnLoop_done (h : ¬ sorted.length < ns.length) :
    kahnLoop ns adj (fuel + 1) sorted visited queue deg = sorted := by
  cases queue with
  | nil => rw [kahnLoop_nil, if_neg h]
  | cons c rest => rw [kahnLoop_cons, if_neg h]

theorem kahnLoop_break (h : sorted.length < ns.length)
    (hf : ns.find? (fun n => decide (n.id ∉ visited)) = none) :
    kahnLoop ns adj (fuel + 1) sorted visited [] deg = sorted := by
  rw [kahnLoop_nil, if_pos h, hf]

theorem kahnLoop_fallback (h : sorted.length < ns.length)
    (hf : ns.find? (fun n => decide (n.id ∉ visited)) = some n) :
    kahnLoop ns adj (fuel + 1) sorted visited [] deg
      = kahnVisit ns adj fuel sorted visited n.id [] deg := by
  have hnv : n.id ∉ visited := by
    have := List.find?_some hf
    simpa using this
  rw [kahnLoop_nil, if_pos h, hf]
  show (if n.id ∈ visited then _ else _) = _
  rw [if_neg hnv]

theorem kahnLoop_skip (h : sorted.length < ns.length) (hc : c ∈ visited) :
    kahnLoop ns adj (fuel + 1) sorted visited (c :: rest) deg
      = kahnLoop ns adj fuel sorted visited rest deg := by
  rw [kahnLoop_cons, if_pos h, if_pos hc]

theorem kahnLoop_visit (h : sorted.length < ns.length) (hc : c ∉ visited) :
    kahnLoop ns adj (fuel + 1) sorted visited (c :: rest) deg
      = kahnVisit ns adj fuel sorted visited c rest deg := by
  rw [kahnLoop_cons, if_pos h, if_neg hc]

end KahnEquations

section Master

/-- `nodeById` success forces the id to be a node id. -/
theorem nodeById_id_mem {ns : List RouteNode} {i : Int} {n : RouteNode}
    (h : nodeById ns i = some n) : i ∈ ns.map (fun n => n.id) :=
  List.mem_map.2 ⟨n, nodeById_mem h, nodeById_id h⟩

/-- Termination potential of a Kahn-loop state: current queue length,
plus the number of edges whose source is still unvisited (each can cause
at most one future enqueue), plus the number of nodes with unvisited id
(each can cause at most one future fallback enqueue), plus one. -/
def phi (ns : List RouteNode) (es : List RouteEdge) (visited queue : List Int) : Nat :=
  queue.length + (es.filter (fun e => decide (e.«from» ∉ visited))).length
    + (ns.filter (fun n => decide (n.id ∉ visited))).length + 1

theorem length_filter_key_cons_edges (es : List RouteEdge) (visited : List Int)
    {c : Int} (hc : c ∉ visited) :
    (es.filter (fun x => decide (x.«from» ∉ visited))).length
      = (es.filter (fun x => decide (x.«from» ∉ c :: visited))).length
        + (es.filter (fun x => decide (x.«from» = c))).length := by
  induction es with
  | nil => simp
  | cons x xs ih =>
    by_cases h1 : x.«from» = c
    · have hp1 : (fun x : RouteEdge => decide (x.«from» ∉ visited)) x = true :=
        decide_eq_true (by rw [h1]; exact hc)
      have hp2 : ¬ (fun x : RouteEdge => decide (x.«from» ∉ c :: visited)) x = true :=
        fun h => (of_decide_eq_true h) (by rw [h1]; exact List.mem_cons_self _ _)
      have hp3 : (fun x : RouteEdge => decide (x.«from» = c)) x = true := decide_eq_true h1
      rw [@List.filter_cons_of_pos RouteEdge (fun x : RouteEdge => decide (x.«from» ∉ visited)) x xs hp1, @List.filter_cons_of_neg RouteEdge (fun x : RouteEdge => decide (x.«from» ∉ c :: visited)) x xs hp2,
        @List.filter_cons_of_pos RouteEdge (fun x : RouteEdge => decide (x.«from» = c)) x xs hp3]
      simp only [List.length_cons]
      omega
    · by_cases h2 : x.«from» ∈ visited
      · have hp1 : ¬ (fun x : RouteEdge => decide (x.«from» ∉ visited)) x = true :=
          fun h => (of_decide_eq_true h) h2
        have hp2 : ¬ (fun x : RouteEdge => decide (x.«from» ∉ c :: visited)) x = true :=
          fun h => (of_decide_eq_true h) (List.mem_cons_of_mem _ h2)
        have hp3 : ¬ (fun x : RouteEdge => decide (x.«from» = c)) x = true :=
          fun h => h1 (of_decide_eq_true h)
        rw [@List.filter_cons_of_neg RouteEdge (fun x : RouteEdge => decide (x.«from» ∉ visited)) x xs hp1, @List.filter_cons_of_neg RouteEdge (fun x : RouteEdge => decide (x.«from» ∉ c :: visited)) x xs hp2,
          @List.filter_cons_of_neg RouteEdge (fun x : RouteEdge => decide (x.«from» = c)) x xs hp3]
        exact ih
      · have hp1 : (fun x : RouteEdge => decide (x.«from» ∉ visited)) x = true :=
          decide_eq_true h2
        have hp2 : (fun x : RouteEdge => decide (x.«from» ∉ c :: visited)) x = true :=
          decide_eq_true (by
            intro hmm
            rcases List.mem_cons.1 hmm with h | h
            · exact h1 h
            · exact h2 h)
        have hp3 : ¬ (fun x : RouteEdge => decide (x.«from» = c)) x = true :=
          fun h => h1 (of_decide_eq_true h)
        rw [@List.filter_cons_of_pos RouteEdge (fun x : RouteEdge => decide (x.«from» ∉ visited)) x xs hp1, @List.filter_cons_of_pos RouteEdge (fun x : RouteEdge => decide (x.«from» ∉ c :: visited)) x xs hp2,
          @List.filter_cons_of_neg RouteEdge (fun x : RouteEdge => decide (x.«from» = c)) x xs hp3]
        simp only [List.length_cons]
        omega

theorem length_filter_key_cons_nodes (ns : List RouteNode) (visited : List Int)
    {c : Int} (hc : c ∉ visited) :
    (ns.filter (fun x => decide (x.id ∉ visited))).length
      = (ns.filter (fun x => decide (x.id ∉ c :: visited))).length
        + (ns.filter (fun x => decide (x.id = c))).length := by
  induction ns with
  | nil => simp
  | cons x xs ih =>
    by_cases h1 : x.id = c
    · have hp1 : (fun x : RouteNode => decide (x.id ∉ visited)) x = true :=
        decide_eq_true (by rw [h1]; exact hc)
      have hp2 : ¬ (fun x : RouteNode => decide (x.id ∉ c :: visited)) x = true :=
        fun h => (of_decide_eq_true h) (by rw [h1]; exact List.mem_cons_self _ _)
      have hp3 : (fun x : RouteNode => decide (x.id = c)) x = true := decide_eq_true h1
      rw [@List.filter_cons_of_pos RouteNode (fun x : RouteNode => decide (x.id ∉ visited)) x xs hp1, @List.filter_cons_of_neg RouteNode (fun x : RouteNode => decide (x.id ∉ c :: visited)) x xs hp2,
        @List.filter_cons_of_pos RouteNode (fun x : RouteNode => decide (x.id = c)) x xs hp3]
      simp only [List.length_cons]
      omega
    · by_cases h2 : x.id ∈ visited
      · have hp1 : ¬ (fun x : RouteNode => decide (x.id ∉ visited)) x = true :=
          fun h => (of_decide_eq_true h) h2
        have hp2 : ¬ (fun x : RouteNode => decide (x.id ∉ c :: visited)) x = true :=
          fun h => (of_decide_eq_true h) (List.mem_cons_of_mem _ h2)
        have hp3 : ¬ (fun x : RouteNode => decide (x.id = c)) x = true :=
          fun h => h1 (of_decide_eq_true h)
        rw [@List.filter_cons_of_neg RouteNode (fun x : RouteNode => decide (x.id ∉ visited)) x xs hp1, @List.filter_cons_of_neg RouteNode (fun x : RouteNode => decide (x.id ∉ c :: visited)) x xs hp2,
          @List.filter_cons_of_neg RouteNode (fun x : RouteNode => decide (x.id = c)) x xs hp3]
        exact ih
      · have hp1 : (fun x : RouteNode => decide (x.id ∉ visited)) x = true :=
          decide_eq_true h2
        have hp2 : (fun x : RouteNode => decide (x.id ∉ c :: visited)) x = true :=
          decide_eq_true (by
            intro hmm
            rcases List.mem_cons.1 hmm with h | h
            · exact h1 h
            · exact h2 h)
        have hp3 : ¬ (fun x : RouteNode => decide (x.id = c)) x = true :=
          fun h => h1 (of_decide_eq_true h)
        rw [@List.filter_cons_of_pos RouteNode (fun x : RouteNode => decide (x.id ∉ visited)) x xs hp1, @List.filter_cons_of_pos RouteNode (fun x : RouteNode => decide (x.id ∉ c :: visited)) x xs hp2,
          @List.filter_cons_of_neg RouteNode (fun x : RouteNode => decide (x.id = c)) x xs hp3]
        simp only [List.length_cons]
        omega

theorem adj_length (es : List RouteEdge) (c : Int) :
    (buildAdjacency es c).length = (es.filter (fun e => decide (e.«from» = c))).length := by
  rw [buildAdjacency_eq, List.length_map]

theorem phi_visit_le (ns : List RouteNode) (es : List RouteEdge) {visited : List Int}
    (rest : List Int) (deg : Int → Int) {c : Int} (hc : c ∉ visited) :
    phi ns es (c :: visited) (processNeighbors (buildAdjacency es c) rest deg).1 + 1
      ≤ phi ns es visited (c :: rest) := by
  have hq : (processNeighbors (buildAdjacency es c) rest deg).1.length
      ≤ rest.length + (buildAdjacency es c).length := by
    rw [processNeighbors_queue, List.length_append]
    exact Nat.add_le_add_left (pushes_length _ _) _
  have hE := length_filter_key_cons_edges es visited hc
  have hN : (ns.filter (fun n => decide (n.id ∉ c :: visited))).length
      ≤ (ns.filter (fun n => decide (n.id ∉ visited))).length := by
    rw [length_filter_key_cons_nodes ns visited hc]
    omega
  have hA := adj_length es c
  simp only [phi, List.length_cons]
  omega

theorem phi_fallback_le (ns : List RouteNode) (es : List RouteEdge) {visited : List Int}
    (deg : Int → Int) {c : Int} (hc : c ∉ visited) (hex : ∃ n ∈ ns, n.id = c) :
    phi ns es (c :: visited) (processNeighbors (buildAdjacency es c) [] deg).1 + 1
      ≤ phi ns es visited [] := by
  have hq : (processNeighbors (buildAdjacency es c) [] deg).1.length
      ≤ (buildAdjacency es c).length := by
    rw [processNeighbors_queue, List.length_append]
    simpa using pushes_length _ _
  have hE := length_filter_key_cons_edges es visited hc
  have hN := length_filter_key_cons_nodes ns visited hc
  have hA := adj_length es c
  have hone : 1 ≤ (ns.filter (fun n => decide (n.id = c))).length := by
    rcases hex with ⟨n, hn, hid⟩
    have : n ∈ ns.filter (fun n => decide (n.id = c)) :=
      List.mem_filter.2 ⟨hn, by simp [hid]⟩
    exact List.length_pos_of_mem this
  simp only [phi, List.length_nil]
  omega

/-- Invariant of the Kahn loop that suffices for the coverage theorem:
emitted nodes are exactly the `nodeById` images of the visited node ids,
with no id emitted twice. -/
structure BaseInv (ns : List RouteNode) (sorted : List RouteNode) (visited : List Int) : Prop where
  emit_nodeById : ∀ n ∈ sorted, nodeById ns n.id = some n
  emit_nodup : (sorted.map (fun n => n.id)).Nodup
  emit_visited : ∀ i ∈ sorted.map (fun n => n.id), i ∈ visited
  visited_emit : ∀ i ∈ visited, i ∈ ns.map (fun n => n.id) → i ∈ sorted.map (fun n => n.id)

/-- Conclusion of the coverage theorem: the returned list consists of
`nodeById` images, has pairwise distinct ids, and realises every input
node id. -/
def Covers (ns : List RouteNode) (r : List RouteNode) : Prop :=
  (∀ n ∈ r, nodeById ns n.id = some n) ∧ (r.map (fun n => n.id)).Nodup ∧
    ∀ i ∈ ns.map (fun n => n.id), i ∈ r.map (fun n => n.id)

theorem baseInv_init (ns : List RouteNode) : BaseInv ns [] [] := by
  constructor <;> simp

theorem covers_of_all_visited {ns : List RouteNode} {sorted : List RouteNode}
    {visited : List Int} (inv : BaseInv ns sorted visited)
    (hall : ∀ n ∈ ns, n.id ∈ visited) : Covers ns sorted := by
  refine ⟨inv.emit_nodeById, inv.emit_nodup, ?_⟩
  intro i hi
  rcases List.mem_map.1 hi with ⟨n, hn, rfl⟩
  exact inv.visited_emit _ (hall n hn) hi

theorem covers_of_full {ns : List RouteNode} {sorted : List RouteNode}
    {visited : List Int} (inv : BaseInv ns sorted visited)
    (hlen : ns.length ≤ sorted.length) : Covers ns sorted := by
  refine ⟨inv.emit_nodeById, inv.emit_nodup, ?_⟩
  have hsub : (sorted.map (fun n => n.id)).toFinset ⊆ (ns.map (fun n => n.id)).toFinset := by
    intro i hi
    rw [List.mem_toFinset] at hi ⊢
    rcases List.mem_map.1 hi with ⟨n, hn, rfl⟩
    exact nodeById_id_mem (inv.emit_nodeById n hn)
  have hc1 : (sorted.map (fun n => n.id)).toFinset.card = sorted.length := by
    rw [List.toFinset_card_of_nodup inv.emit_nodup, List.length_map]
  have hc2 : (ns.map (fun n => n.id)).toFinset.card ≤ ns.length := by
    calc (ns.map (fun n => n.id)).toFinset.card ≤ (ns.map (fun n => n.id)).length :=
          List.toFinset_card_le _
      _ = ns.length := List.length_map _ _
  have heq : (sorted.map (fun n => n.id)).toFinset = (ns.map (fun n => n.id)).toFinset := by
    apply Finset.eq_of_subset_of_card_le hsub
    omega
  intro i hi
  have : i ∈ (sorted.map (fun n => n.id)).toFinset := by
    rw [heq, List.mem_toFinset]
    exact hi
  exact List.mem_toFinset.1 this

theorem baseInv_visit {ns : List RouteNode} {sorted : List RouteNode}
    {visited : List Int} (inv : BaseInv ns sorted visited) {c : Int} (hc : c ∉ visited) :
    BaseInv ns
      (match nodeById ns c with
       | some nd => sorted ++ [nd]
       | none => sorted)
      (c :: visited) := by
  cases hnb : nodeById ns c with
  | none =>
    refine ⟨inv.emit_nodeById, inv.emit_nodup, ?_, ?_⟩
    · intro i hi
      exact List.mem_cons_of_mem _ (inv.emit_visited i hi)
    · intro i hi hins
      rcases List.mem_cons.1 hi with rfl | hi'
      · exact absurd hins (nodeById_eq_none_iff.1 hnb)
      · exact inv.visited_emit i hi' hins
  | some nd =>
    have hid : nd.id = c := nodeById_id hnb
    have hcn : c ∉ sorted.map (fun n => n.id) := fun h => hc (inv.emit_visited c h)
    refine ⟨?_, ?_, ?_, ?_⟩
    · intro n hn
      rcases List.mem_append.1 hn with h | h
      · exact inv.emit_nodeById n h
      · rcases List.mem_singleton.1 h with rfl
        rw [hid]
        exact hnb
    · rw [List.map_append]
      simp only [List.map_cons, List.map_nil]
      rw [List.nodup_append]
      refine ⟨inv.emit_nodup, List.nodup_singleton _, ?_⟩
      intro i hi hi'
      rcases List.mem_singleton.1 hi' with rfl
      rw [hid] at hi
      exact hcn hi
    · intro i hi
      rw [List.map_append] at hi
      rcases List.mem_append.1 hi with h | h
      · exact List.mem_cons_of_mem _ (inv.emit_visited i h)
      · simp only [List.map_cons, List.map_nil, List.mem_singleton] at h
        rw [h, hid]
        exact List.mem_cons_self _ _
    · intro i hi hins
      rw [List.map_append]
      rcases List.mem_cons.1 hi with rfl | hi'
      · apply List.mem_append.2
        right
        simp [hid]
      · exact List.mem_append.2 (Or.inl (inv.visited_emit i hi' hins))

theorem kahn_master (ns : List RouteNode) (es : List RouteEdge) :
    ∀ (fuel : Nat) (sorted : List RouteNode) (visited queue : List Int) (deg : Int → Int),
      phi ns es visited queue ≤ fuel →
      BaseInv ns sorted visited →
      Covers ns (kahnLoop ns (buildAdjacency es) fuel sorted visited queue deg) := by
  intro fuel
  induction fuel with
  | zero =>
    intro sorted visited queue deg hphi _
    exfalso
    simp [phi] at hphi
  | succ fuel ih =>
    intro sorted visited queue deg hphi inv
    by_cases hlen : sorted.length < ns.length
    · cases queue with
      | nil =>
        cases hf : ns.find? (fun n => decide (n.id ∉ visited)) with
        | none =>
          rw [kahnLoop_break hlen hf]
          apply covers_of_all_visited inv
          intro n hn
          have := List.find?_eq_none.1 hf n hn
          simpa using this
        | some n =>
          rw [kahnLoop_fallback hlen hf]
          have hnv : n.id ∉ visited := by
            have := List.find?_some hf
            simpa using this
          have hmem : n ∈ ns := List.mem_of_find?_eq_some hf
          show Covers ns (kahnLoop ns (buildAdjacency es) fuel _ _ _ _)
          apply ih
          · have := phi_fallback_le ns es deg hnv ⟨n, hmem, rfl⟩
            omega
          · exact baseInv_visit inv hnv
      | cons c rest =>
        by_cases hc : c ∈ visited
        · rw [kahnLoop_skip hlen hc]
          apply ih
          · simp only [phi, List.length_cons] at hphi ⊢
            omega
          · exact inv
        · rw [kahnLoop_visit hlen hc]
          show Covers ns (kahnLoop ns (buildAdjacency es) fuel _ _ _ _)
          apply ih
          · have := phi_visit_le ns es rest deg hc
            omega
          · exact baseInv_visit inv hc
    · rw [kahnLoop_done hlen]
      exact covers_of_full inv (Nat.le_of_not_lt hlen)

/-- Soundness of `reorderNodes`: the initial fuel dominates the initial
potential, so the loop always runs to natural completion; the output
consists of `nodeById` images of the input ids, has pairwise distinct
ids, and contains every input node id. -/
theorem reorderNodes_sound (ns : List RouteNode) (es : List RouteEdge) :
    Covers ns (reorderNodes ns es) := by
  unfold reorderNodes
  apply kahn_master
  · have hq : (initialQueue ns (buildInDegree es)).length ≤ ns.length := by
      unfold initialQueue
      rw [List.length_map]
      exact List.length_filter_le _ _
    have hE : (es.filter (fun e => decide (e.«from» ∉ ([] : List Int)))).length ≤ es.length :=
      List.length_filter_le _ _
    have hN : (ns.filter (fun n => decide (n.id ∉ ([] : List Int)))).length ≤ ns.length :=
      List.length_filter_le _ _
    simp only [phi, reorderFuel]
    omega
  · exact baseInv_init ns

end Master

section ReorderConsequences

/-- Default node used only to totalise `nodeById` lookups that are
already known to succeed. -/
def dummyNode : RouteNode := ⟨0, "", "", .OTHER, none⟩

/-- Id-lookup as a total function. -/
def lookupD (ns : List RouteNode) (i : Int) : RouteNode :=
  (nodeById ns i).getD dummyNode

theorem reorder_ids_mem_iff (ns : List RouteNode) (es : List RouteEdge) (i : Int) :
    i ∈ (reorderNodes ns es).map (fun n => n.id) ↔ i ∈ ns.map (fun n => n.id) := by
  obtain ⟨h1, _, h3⟩ := reorderNodes_sound ns es
  constructor
  · intro hi
    rcases List.mem_map.1 hi with ⟨n, hn, rfl⟩
    exact nodeById_id_mem (h1 n hn)
  · exact h3 i

theorem reorder_ids_nodup (ns : List RouteNode) (es : List RouteEdge) :
    ((reorderNodes ns es).map (fun n => n.id)).Nodup :=
  (reorderNodes_sound ns es).2.1

theorem reorder_mem_nodeById (ns : List RouteNode) (es : List RouteEdge) :
    ∀ n ∈ reorderNodes ns es, nodeById ns n.id = some n :=
  (reorderNodes_sound ns es).1

theorem reorder_eq_map_lookup (ns : List RouteNode) (es : List RouteEdge) :
    reorderNodes ns es
      = ((reorderNodes ns es).map (fun n => n.id)).map (lookupD ns) := by
  rw [List.map_map]
  have : ∀ n ∈ reorderNodes ns es, ((lookupD ns) ∘ fun n => n.id) n = id n := by
    intro n hn
    simp only [Function.comp_apply, lookupD, reorder_mem_nodeById ns es n hn, Option.getD_some, id]
  rw [List.map_congr_left this, List.map_id]

theorem reorder_ids_perm_dedup (ns : List RouteNode) (es : List RouteEdge) :
    ((reorderNodes ns es).map (fun n => n.id)).Perm (ns.map (fun n => n.id)).dedup := by
  rw [List.perm_ext_iff_of_nodup (reorder_ids_nodup ns es) (List.nodup_dedup _)]
  intro i
  rw [List.mem_dedup]
  exact reorder_ids_mem_iff ns es i

theorem reorder_length (ns : List RouteNode) (es : List RouteEdge) :
    (reorderNodes ns es).length = (ns.map (fun n => n.id)).dedup.length := by
  have := (reorder_ids_perm_dedup ns es).length_eq
  rwa [List.length_map] at this

/-- Two runs over the same node list are always permutations of each
other, whatever the two edge lists are. -/
theorem reorder_perm_reorder (ns : List RouteNode) (es es' : List RouteEdge) :
    (reorderNodes ns es).Perm (reorderNodes ns es') := by
  have hperm : ((reorderNodes ns es).map (fun n => n.id)).Perm
      ((reorderNodes ns es').map (fun n => n.id)) := by
    rw [List.perm_ext_iff_of_nodup (reorder_ids_nodup ns es) (reorder_ids_nodup ns es')]
    intro i
    rw [reorder_ids_mem_iff, reorder_ids_mem_iff]
  rw [reorder_eq_map_lookup ns es, reorder_eq_map_lookup ns es']
  exact hperm.map (lookupD ns)

theorem reorder_perm_of_nodup (ns : List RouteNode) (es : List RouteEdge)
    (h : (ns.map (fun n => n.id)).Nodup) : (reorderNodes ns es).Perm ns := by
  have hperm : ((reorderNodes ns es).map (fun n => n.id)).Perm (ns.map (fun n => n.id)) := by
    rw [List.perm_ext_iff_of_nodup (reorder_ids_nodup ns es) h]
    exact reorder_ids_mem_iff ns es
  have hns : ns = (ns.map (fun n => n.id)).map (lookupD ns) := by
    rw [List.map_map]
    have : ∀ n ∈ ns, ((lookupD ns) ∘ fun n => n.id) n = id n := by
      intro n hn
      simp only [Function.comp_apply, lookupD, nodeById_of_nodup h hn, Option.getD_some, id]
    rw [List.map_congr_left this, List.map_id]
  rw [reorder_eq_map_lookup ns es]
  conv_rhs => rw [hns]
  exact hperm.map (lookupD ns)

/-- An edge both of whose endpoints name existing nodes. -/
def edgeEndpointsPresent (ns : List RouteNode) (e : RouteEdge) : Bool :=
  decide (e.«from» ∈ ns.map (fun n => n.id)) && decide (e.«to» ∈ ns.map (fun n => n.id))

end ReorderConsequences

/-- `nodeById` returns the last node in input order bearing the id
(the JS `Map` keeps the latest entry per key). -/
theorem nodeById_eq_getLast (ns : List RouteNode) (i : Int) :
    nodeById ns i = (ns.filter (fun n => decide (n.id = i))).getLast? := by
  induction ns using List.reverseRecOn with
  | nil => rfl
  | append_singleton ns' x ih =>
    unfold nodeById at *
    rw [List.reverse_append, List.reverse_singleton, List.singleton_append,
      List.filter_append]
    by_cases h : x.id = i
    · rw [@List.find?_cons_of_pos RouteNode (fun n => decide (n.id = i)) x ns'.reverse (decide_eq_true h)]
      have : List.filter (fun n => decide (n.id = i)) [x] = [x] := by
        simp [h]
      rw [this, List.getLast?_concat]
    · rw [@List.find?_cons_of_neg RouteNode (fun n => decide (n.id = i)) x ns'.reverse (by simpa using h)]
      have : List.filter (fun n => decide (n.id = i)) [x] = [] := by
        simp [h]
      rw [this, List.append_nil, ih]

section OrderedKahn

/-- Multiplicity of `v` among the out-neighbours of `c`: the number of
edges `c → v`. -/
theorem count_adj (es : List RouteEdge) (c v : Int) :
    (buildAdjacency es c).count v
      = (es.filter (fun e => decide (e.«from» = c ∧ e.«to» = v))).length := by
  rw [buildAdjacency_eq]
  induction es with
  | nil => simp
  | cons e es ih =>
    by_cases h1 : e.«from» = c
    · rw [@List.filter_cons_of_pos RouteEdge (fun e => decide (e.«from» = c)) e es
        (decide_eq_true h1)]
      rw [List.map_cons, count_cons_int]
      by_cases h2 : e.«to» = v
      · rw [@List.filter_cons_of_pos RouteEdge
          (fun e => decide (e.«from» = c ∧ e.«to» = v)) e es
          (decide_eq_true ⟨h1, h2⟩)]
        rw [List.length_cons, if_pos h2.symm, ih]
      · rw [@List.filter_cons_of_neg RouteEdge
          (fun e => decide (e.«from» = c ∧ e.«to» = v)) e es
          (fun h => h2 (of_decide_eq_true h).2)]
        rw [if_neg (fun h => h2 h.symm), ih]
        omega
    · rw [@List.filter_cons_of_neg RouteEdge (fun e => decide (e.«from» = c)) e es
        (fun h => h1 (of_decide_eq_true h))]
      rw [@List.filter_cons_of_neg RouteEdge
        (fun e => decide (e.«from» = c ∧ e.«to» = v)) e es
        (fun h => h1 (of_decide_eq_true h).1)]
      exact ih

/-- Visiting `c` removes exactly the edges `c → v` from the count of
`v`'s in-edges with unvisited source. -/
theorem filter_deg_split (es : List RouteEdge) (visited : List Int) (v : Int)
    {c : Int} (hc : c ∉ visited) :
    (es.filter (fun e => decide (e.«to» = v ∧ e.«from» ∉ visited))).length
      = (es.filter (fun e => decide (e.«to» = v ∧ e.«from» ∉ c :: visited))).length
        + (es.filter (fun e => decide (e.«from» = c ∧ e.«to» = v))).length := by
  induction es with
  | nil => simp
  | cons e es ih =>
    by_cases h1 : e.«to» = v
    · by_cases h2 : e.«from» = c
      · have hpA : (fun e : RouteEdge => decide (e.«to» = v ∧ e.«from» ∉ visited)) e = true :=
          decide_eq_true ⟨h1, by rw [h2]; exact hc⟩
        have hpB : ¬ (fun e : RouteEdge => decide (e.«to» = v ∧ e.«from» ∉ c :: visited)) e = true :=
          fun h => (of_decide_eq_true h).2 (by rw [h2]; exact List.mem_cons_self _ _)
        have hpC : (fun e : RouteEdge => decide (e.«from» = c ∧ e.«to» = v)) e = true :=
          decide_eq_true ⟨h2, h1⟩
        rw [@List.filter_cons_of_pos RouteEdge _ e es hpA,
          @List.filter_cons_of_neg RouteEdge _ e es hpB,
          @List.filter_cons_of_pos RouteEdge _ e es hpC]
        simp only [List.length_cons]
        omega
      · by_cases h3 : e.«from» ∈ visited
        · have hpA : ¬ (fun e : RouteEdge => decide (e.«to» = v ∧ e.«from» ∉ visited)) e = true :=
            fun h => (of_decide_eq_true h).2 h3
          have hpB : ¬ (fun e : RouteEdge => decide (e.«to» = v ∧ e.«from» ∉ c :: visited)) e = true :=
            fun h => (of_decide_eq_true h).2 (List.mem_cons_of_mem _ h3)
          have hpC : ¬ (fun e : RouteEdge => decide (e.«from» = c ∧ e.«to» = v)) e = true :=
            fun h => h2 (of_decide_eq_true h).1
          rw [@List.filter_cons_of_neg RouteEdge _ e es hpA,
            @List.filter_cons_of_neg RouteEdge _ e es hpB,
            @List.filter_cons_of_neg RouteEdge _ e es hpC]
          exact ih
        · have hpA : (fun e : RouteEdge => decide (e.«to» = v ∧ e.«from» ∉ visited)) e = true :=
            decide_eq_true ⟨h1, h3⟩
          have hpB : (fun e : RouteEdge => decide (e.«to» = v ∧ e.«from» ∉ c :: visited)) e = true :=
            decide_eq_true ⟨h1, by
              intro hmm
              rcases List.mem_cons.1 hmm with h | h
              · exact h2 h
              · exact h3 h⟩
          have hpC : ¬ (fun e : RouteEdge => decide (e.«from» = c ∧ e.«to» = v)) e = true :=
            fun h => h2 (of_decide_eq_true h).1
          rw [@List.filter_cons_of_pos RouteEdge _ e es hpA,
            @List.filter_cons_of_pos RouteEdge _ e es hpB,
            @List.filter_cons_of_neg RouteEdge _ e es hpC]
          simp only [List.length_cons]
          omega
    · have hpA : ¬ (fun e : RouteEdge => decide (e.«to» = v ∧ e.«from» ∉ visited)) e = true :=
        fun h => h1 (of_decide_eq_true h).1
      have hpB : ¬ (fun e : RouteEdge => decide (e.«to» = v ∧ e.«from» ∉ c :: visited)) e = true :=
        fun h => h1 (of_decide_eq_true h).1
      have hpC : ¬ (fun e : RouteEdge => decide (e.«from» = c ∧ e.«to» = v)) e = true :=
        fun h => h1 (of_decide_eq_true h).2
      rw [@List.filter_cons_of_neg RouteEdge _ e es hpA,
        @List.filter_cons_of_neg RouteEdge _ e es hpB,
        @List.filter_cons_of_neg RouteEdge _ e es hpC]
      exact ih

/-- With nothing visited, the unvisited-source in-degree is the plain
in-degree, i.e. the `inDegree` map built from the edges. -/
theorem deg_eq_init (es : List RouteEdge) (v : Int) :
    buildInDegree es v
      = ((es.filter (fun e => decide (e.«to» = v ∧ e.«from» ∉ ([] : List Int)))).length : Int) := by
  rw [buildInDegree_eq]
  congr 2
  apply List.filter_congr
  intro e _
  simp


/-- Invariant for the edge-order theorem, on top of `BaseInv`: the
degree map counts in-edges with unvisited source, queue members have
degree zero and are real node ids, every ready unvisited node is
queued, and the emitted prefix respects every edge between emitted
nodes. -/
structure OrderInv (ns : List RouteNode) (es : List RouteEdge)
    (sorted : List RouteNode) (visited queue : List Int) (deg : Int → Int) : Prop where
  base : BaseInv ns sorted visited
  deg_eq : ∀ v, deg v
    = ((es.filter (fun e => decide (e.«to» = v ∧ e.«from» ∉ visited))).length : Int)
  queue_zero : ∀ q ∈ queue, deg q = 0
  queue_ids : ∀ q ∈ queue, q ∈ ns.map (fun n => n.id)
  visited_ids : ∀ v ∈ visited, v ∈ ns.map (fun n => n.id)
  ready : ∀ v ∈ ns.map (fun n => n.id), v ∉ visited → deg v = 0 → v ∈ queue
  ordered : ∀ e ∈ es, e.«to» ∈ sorted.map (fun n => n.id) →
    e.«from» ∈ sorted.map (fun n => n.id) ∧
      (sorted.map (fun n => n.id)).indexOf e.«from»
        < (sorted.map (fun n => n.id)).indexOf e.«to»

theorem orderInv_init (ns : List RouteNode) (es : List RouteEdge) :
    OrderInv ns es [] [] (initialQueue ns (buildInDegree es)) (buildInDegree es) := by
  refine ⟨baseInv_init ns, deg_eq_init es, ?_, ?_, ?_, ?_, ?_⟩
  · intro q hq
    rcases List.mem_map.1 hq with ⟨n, hn, rfl⟩
    exact of_decide_eq_true (List.mem_filter.1 hn).2
  · intro q hq
    rcases List.mem_map.1 hq with ⟨n, hn, rfl⟩
    exact List.mem_map.2 ⟨n, List.mem_of_mem_filter hn, rfl⟩
  · intro v hv
    exact absurd hv (List.not_mem_nil v)
  · intro v hv _ hd
    rcases List.mem_map.1 hv with ⟨n, hn, rfl⟩
    exact List.mem_map.2 ⟨n, List.mem_filter.2 ⟨hn, decide_eq_true hd⟩, rfl⟩
  · intro e _ hto
    exact absurd hto (List.not_mem_nil _)

theorem orderInv_skip {ns : List RouteNode} {es : List RouteEdge}
    {sorted : List RouteNode} {visited rest : List Int} {deg : Int → Int} {c : Int}
    (inv : OrderInv ns es sorted visited (c :: rest) deg) (hc : c ∈ visited) :
    OrderInv ns es sorted visited rest deg := by
  refine ⟨inv.base, inv.deg_eq, ?_, ?_, inv.visited_ids, ?_, inv.ordered⟩
  · intro q hq
    exact inv.queue_zero q (List.mem_cons_of_mem _ hq)
  · intro q hq
    exact inv.queue_ids q (List.mem_cons_of_mem _ hq)
  · intro v hv hnv hd
    rcases List.mem_cons.1 (inv.ready v hv hnv hd) with rfl | h
    · exact absurd hc hnv
    · exact h

theorem orderInv_visit (ns : List RouteNode) (es : List RouteEdge)
    {sorted : List RouteNode} {visited rest : List Int} {deg : Int → Int} {c : Int}
    (hwf : ∀ e ∈ es, e.«from» ∈ ns.map (fun n => n.id) ∧ e.«to» ∈ ns.map (fun n => n.id))
    (inv : OrderInv ns es sorted visited (c :: rest) deg)
    (hc : c ∉ visited) :
    OrderInv ns es
      (match nodeById ns c with
       | some nd => sorted ++ [nd]
       | none => sorted)
      (c :: visited)
      (processNeighbors (buildAdjacency es c) rest deg).1
      (processNeighbors (buildAdjacency es c) rest deg).2 := by
  have hcid : c ∈ ns.map (fun n => n.id) := inv.queue_ids c (List.mem_cons_self _ _)
  have hdegc : deg c = 0 := inv.queue_zero c (List.mem_cons_self _ _)
  have hdegcount : ∀ v, ((buildAdjacency es c).count v : Int) ≤ deg v := by
    intro v
    rw [count_adj, inv.deg_eq v]
    have : (es.filter (fun e => decide (e.«from» = c ∧ e.«to» = v))).length
        ≤ (es.filter (fun e => decide (e.«to» = v ∧ e.«from» ∉ visited))).length := by
      rw [← List.countP_eq_length_filter, ← List.countP_eq_length_filter]
      apply List.countP_mono_left
      intro e _ he
      obtain ⟨h1, h2⟩ := of_decide_eq_true he
      exact decide_eq_true ⟨h2, by rw [h1]; exact hc⟩
    exact_mod_cast this
  have hdeg' : ∀ v, (processNeighbors (buildAdjacency es c) rest deg).2 v
      = ((es.filter (fun e => decide (e.«to» = v ∧ e.«from» ∉ c :: visited))).length : Int) := by
    intro v
    rw [processNeighbors_deg]
    have hs := filter_deg_split es visited v hc
    have h1 := inv.deg_eq v
    have h2 := count_adj es c v
    simp only at h1 h2 ⊢
    rw [h1, h2]
    push_cast
    omega
  have hqueue : (processNeighbors (buildAdjacency es c) rest deg).1
      = rest ++ pushes (buildAdjacency es c) deg := processNeighbors_queue _ _ _
  have hpush_ids : ∀ q ∈ pushes (buildAdjacency es c) deg, q ∈ ns.map (fun n => n.id) := by
    intro q hq
    have hqa := pushes_subset _ _ q hq
    rw [buildAdjacency_eq] at hqa
    rcases List.mem_map.1 hqa with ⟨e, he, rfl⟩
    exact (hwf e (List.mem_of_mem_filter he)).2
  rcases nodeById_isSome hcid with ⟨nd, hnd⟩
  have hndid : nd.id = c := nodeById_id hnd
  have hcsorted : c ∉ sorted.map (fun n => n.id) :=
    fun h => hc (inv.base.emit_visited c h)
  have hfrom_vis : ∀ e ∈ es, e.«to» = c → e.«from» ∈ visited := by
    intro e he hto
    by_contra hnv
    have h0 := inv.deg_eq c
    rw [hdegc] at h0
    have hlen0 : (es.filter (fun e => decide (e.«to» = c ∧ e.«from» ∉ visited))).length = 0 := by
      exact_mod_cast h0.symm
    have hnil := List.eq_nil_of_length_eq_zero hlen0
    have : e ∈ es.filter (fun e => decide (e.«to» = c ∧ e.«from» ∉ visited)) :=
      List.mem_filter.2 ⟨he, decide_eq_true ⟨hto, hnv⟩⟩
    rw [hnil] at this
    exact absurd this (List.not_mem_nil e)
  rw [hnd]
  refine ⟨?_, hdeg', ?_, ?_, ?_, ?_, ?_⟩
  · have := baseInv_visit inv.base hc
    rw [hnd] at this
    exact this
  · intro q hq
    rw [hqueue] at hq
    rcases List.mem_append.1 hq with h | h
    · have hz : deg q = 0 := inv.queue_zero q (List.mem_cons_of_mem _ h)
      have hcnt : ((buildAdjacency es c).count q : Int) = 0 := by
        have h1 := hdegcount q
        have h2 : (0 : Int) ≤ ((buildAdjacency es c).count q : Int) := Int.ofNat_nonneg _
        omega
      rw [processNeighbors_deg]
      simp only
      omega
    · have := (pushes_mem_iff _ _ hdegcount q).1 h
      rw [processNeighbors_deg]
      simp only
      omega
  · intro q hq
    rw [hqueue] at hq
    rcases List.mem_append.1 hq with h | h
    · exact inv.queue_ids q (List.mem_cons_of_mem _ h)
    · exact hpush_ids q h
  · intro v hv
    rcases List.mem_cons.1 hv with rfl | h
    · exact hcid
    · exact inv.visited_ids v h
  · intro v hv hnv hd
    have hvc : v ≠ c := fun h => hnv (h ▸ List.mem_cons_self _ _)
    have hvv : v ∉ visited := fun h => hnv (List.mem_cons_of_mem _ h)
    rw [hqueue]
    have hdv := hdeg' v
    rw [hd] at hdv
    by_cases hcnt : (buildAdjacency es c).count v = 0
    · have hz : deg v = 0 := by
        have h1 := inv.deg_eq v
        have h2 := filter_deg_split es visited v hc
        have h3 := count_adj es c v
        rw [hcnt] at h3
        have h4 : (es.filter (fun e => decide (e.«from» = c ∧ e.«to» = v))).length = 0 :=
          h3.symm
        have h5 : (es.filter (fun e => decide (e.«to» = v ∧ e.«from» ∉ c :: visited))).length = 0 := by
          exact_mod_cast hdv.symm
        rw [h1]
        push_cast
        omega
      rcases List.mem_cons.1 (inv.ready v hv hvv hz) with rfl | h
      · exact absurd rfl hvc
      · exact List.mem_append.2 (Or.inl h)
    · apply List.mem_append.2
      right
      rw [pushes_mem_iff _ _ hdegcount v]
      constructor
      · exact List.count_pos_iff.1 (Nat.pos_of_ne_zero hcnt)
      · have h1 := inv.deg_eq v
        have h2 := filter_deg_split es visited v hc
        have h3 := count_adj es c v
        have h5 : (es.filter (fun e => decide (e.«to» = v ∧ e.«from» ∉ c :: visited))).length = 0 := by
          exact_mod_cast hdv.symm
        rw [h1, h3]
        push_cast
        omega
  · intro e he hto
    rw [List.map_append, List.map_cons, List.map_nil, hndid] at hto ⊢
    rcases List.mem_append.1 hto with h | h
    · obtain ⟨hf, hlt⟩ := inv.ordered e he h
      refine ⟨List.mem_append.2 (Or.inl hf), ?_⟩
      rw [List.indexOf_append_of_mem hf, List.indexOf_append_of_mem h]
      exact hlt
    · have htoc : e.«to» = c := by simpa using h
      have hfv : e.«from» ∈ visited := hfrom_vis e he htoc
      have hfid : e.«from» ∈ ns.map (fun n => n.id) := (hwf e he).1
      have hfs : e.«from» ∈ sorted.map (fun n => n.id) :=
        inv.base.visited_emit _ hfv hfid
      refine ⟨List.mem_append.2 (Or.inl hfs), ?_⟩
      rw [List.indexOf_append_of_mem hfs, htoc,
        List.indexOf_append_of_not_mem hcsorted]
      have h1 : (sorted.map (fun n => n.id)).indexOf e.«from»
          < (sorted.map (fun n => n.id)).length :=
        List.indexOf_lt_length.2 hfs
      simp only [List.indexOf_cons_self]
      omega

theorem orderInv_no_stall {ns : List RouteNode} {es : List RouteEdge}
    {sorted : List RouteNode} {visited : List Int} {deg : Int → Int}
    (hnd : (ns.map (fun n => n.id)).Nodup)
    (hwf : ∀ e ∈ es, e.«from» ∈ ns.map (fun n => n.id) ∧ e.«to» ∈ ns.map (fun n => n.id))
    (f : Int → Nat) (hf : ∀ e ∈ es, f e.«from» < f e.«to»)
    (inv : OrderInv ns es sorted visited [] deg)
    (hlen : sorted.length < ns.length) : False := by
  have hex : ∃ v ∈ ns.map (fun n => n.id), v ∉ visited := by
    by_contra hcon
    push_neg at hcon
    have hsub : ns.map (fun n => n.id) ⊆ sorted.map (fun n => n.id) := by
      intro i hi
      exact inv.base.visited_emit i (hcon i hi) hi
    have hle : (ns.map (fun n => n.id)).length ≤ (sorted.map (fun n => n.id)).length :=
      (List.Nodup.subperm hnd hsub).length_le
    rw [List.length_map, List.length_map] at hle
    omega
  obtain ⟨v₀, hv₀, hv₀n⟩ := hex
  set T : Finset Int :=
    ((ns.map (fun n => n.id)).filter (fun i => decide (i ∉ visited))).toFinset with hT
  have hTne : T.Nonempty :=
    ⟨v₀, List.mem_toFinset.2 (List.mem_filter.2 ⟨hv₀, decide_eq_true hv₀n⟩)⟩
  obtain ⟨u, huT, humin⟩ := Finset.exists_min_image T f hTne
  have huf := List.mem_toFinset.1 huT
  have huid : u ∈ ns.map (fun n => n.id) := List.mem_of_mem_filter huf
  have hunv : u ∉ visited := of_decide_eq_true (List.mem_filter.1 huf).2
  have hdu : deg u = 0 := by
    rw [inv.deg_eq u]
    have : es.filter (fun e => decide (e.«to» = u ∧ e.«from» ∉ visited)) = [] := by
      rw [List.filter_eq_nil_iff]
      intro e he hp
      obtain ⟨hto, hfr⟩ := of_decide_eq_true hp
      have hfid : e.«from» ∈ ns.map (fun n => n.id) := (hwf e he).1
      have hfT : e.«from» ∈ T :=
        List.mem_toFinset.2 (List.mem_filter.2 ⟨hfid, decide_eq_true hfr⟩)
      have h1 := humin _ hfT
      have h2 := hf e he
      rw [hto] at h2
      omega
    rw [this]
    rfl
  exact absurd (inv.ready u huid hunv hdu) (List.not_mem_nil u)

/-- The output respects every edge between emitted nodes. -/
def OrderedOut (es : List RouteEdge) (r : List RouteNode) : Prop :=
  ∀ e ∈ es, e.«to» ∈ r.map (fun n => n.id) →
    e.«from» ∈ r.map (fun n => n.id) ∧
      (r.map (fun n => n.id)).indexOf e.«from» < (r.map (fun n => n.id)).indexOf e.«to»

theorem kahn_ordered (ns : List RouteNode) (es : List RouteEdge)
    (hnd : (ns.map (fun n => n.id)).Nodup)
    (hwf : ∀ e ∈ es, e.«from» ∈ ns.map (fun n => n.id) ∧ e.«to» ∈ ns.map (fun n => n.id))
    (f : Int → Nat) (hf : ∀ e ∈ es, f e.«from» < f e.«to») :
    ∀ (fuel : Nat) (sorted : List RouteNode) (visited queue : List Int) (deg : Int → Int),
      OrderInv ns es sorted visited queue deg →
      OrderedOut es (kahnLoop ns (buildAdjacency es) fuel sorted visited queue deg) := by
  intro fuel
  induction fuel with
  | zero =>
    intro sorted visited queue deg inv
    rw [kahnLoop_zero]
    exact inv.ordered
  | succ fuel ih =>
    intro sorted visited queue deg inv
    by_cases hlen : sorted.length < ns.length
    · cases queue with
      | nil => exact (orderInv_no_stall hnd hwf f hf inv hlen).elim
      | cons c rest =>
        by_cases hc : c ∈ visited
        · rw [kahnLoop_skip hlen hc]
          exact ih _ _ _ _ (orderInv_skip inv hc)
        · rw [kahnLoop_visit hlen hc]
          exact ih _ _ _ _ (orderInv_visit ns es hwf inv hc)
    · rw [kahnLoop_done hlen]
      exact inv.ordered

end OrderedKahn

section Idempotence

/-- The loop only ever appends to the accumulator. -/
theorem kahnLoop_prefix (ns : List RouteNode) (adj : Int → List Int) :
    ∀ (fuel : Nat) (sorted : List RouteNode) (visited queue : List Int) (deg : Int → Int),
      ∃ t, kahnLoop ns adj fuel sorted visited queue deg = sorted ++ t := by
  intro fuel
  induction fuel with
  | zero =>
    intro sorted visited queue deg
    exact ⟨[], by rw [kahnLoop_zero, List.append_nil]⟩
  | succ fuel ih =>
    intro sorted visited queue deg
    by_cases hlen : sorted.length < ns.length
    · cases queue with
      | nil =>
        cases hf : ns.find? (fun n => decide (n.id ∉ visited)) with
        | none => exact ⟨[], by rw [kahnLoop_break hlen hf, List.append_nil]⟩
        | some n =>
          rw [kahnLoop_fallback hlen hf]
          unfold kahnVisit
          cases hnb : nodeById ns n.id with
          | none => exact ih _ _ _ _
          | some nd =>
            obtain ⟨t, ht⟩ := ih (sorted ++ [nd]) (n.id :: visited)
              (processNeighbors (adj n.id) [] deg).1 (processNeighbors (adj n.id) [] deg).2
            exact ⟨nd :: t, by rw [ht, List.append_assoc, List.singleton_append]⟩
      | cons c rest =>
        by_cases hc : c ∈ visited
        · rw [kahnLoop_skip hlen hc]
          exact ih _ _ _ _
        · rw [kahnLoop_visit hlen hc]
          unfold kahnVisit
          cases hnb : nodeById ns c with
          | none => exact ih _ _ _ _
          | some nd =>
            obtain ⟨t, ht⟩ := ih (sorted ++ [nd]) (c :: visited)
              (processNeighbors (adj c) rest deg).1 (processNeighbors (adj c) rest deg).2
            exact ⟨nd :: t, by rw [ht, List.append_assoc, List.singleton_append]⟩
    · exact ⟨[], by rw [kahnLoop_done hlen, List.append_nil]⟩

/-- Any two sufficient fuels give the same result. -/
theorem kahnLoop_fuel_irrel (ns : List RouteNode) (es : List RouteEdge) :
    ∀ (f₁ f₂ : Nat) (sorted : List RouteNode) (visited queue : List Int) (deg : Int → Int),
      phi ns es visited queue ≤ f₁ → phi ns es visited queue ≤ f₂ →
      kahnLoop ns (buildAdjacency es) f₁ sorted visited queue deg
        = kahnLoop ns (buildAdjacency es) f₂ sorted visited queue deg := by
  intro f₁
  induction f₁ with
  | zero =>
    intro f₂ sorted visited queue deg h1 h2
    exfalso
    simp [phi] at h1
  | succ f₁ ih =>
    intro f₂ sorted visited queue deg h1 h2
    cases f₂ with
    | zero =>
      exfalso
      simp [phi] at h2
    | succ f₂ =>
      by_cases hlen : sorted.length < ns.length
      · cases queue with
        | nil =>
          cases hf : ns.find? (fun n => decide (n.id ∉ visited)) with
          | none => rw [kahnLoop_break hlen hf, kahnLoop_break hlen hf]
          | some n =>
            rw [kahnLoop_fallback hlen hf, kahnLoop_fallback hlen hf]
            have hnv : n.id ∉ visited := by
              have := List.find?_some hf
              simpa using this
            have hmem : n ∈ ns := List.mem_of_find?_eq_some hf
            have hstep := phi_fallback_le ns es deg hnv ⟨n, hmem, rfl⟩
            unfold kahnVisit
            apply ih <;> omega
        | cons c rest =>
          by_cases hc : c ∈ visited
          · rw [kahnLoop_skip hlen hc, kahnLoop_skip hlen hc]
            apply ih <;>
              (simp only [phi, List.length_cons] at h1 h2 ⊢; omega)
          · rw [kahnLoop_visit hlen hc, kahnLoop_visit hlen hc]
            have hstep := phi_visit_le ns es rest deg hc
            unfold kahnVisit
            apply ih <;> omega
      · rw [kahnLoop_done hlen, kahnLoop_done hlen]

/-- `nodeById` is preserved by reordering: lookups into the output list
agree with lookups into the input list. -/
theorem nodeById_reorder_eq (ns : List RouteNode) (es : List RouteEdge) (i : Int) :
    nodeById (reorderNodes ns es) i = nodeById ns i := by
  by_cases hi : i ∈ ns.map (fun n => n.id)
  · rcases nodeById_isSome hi with ⟨u, hu⟩
    have hiR : i ∈ (reorderNodes ns es).map (fun n => n.id) :=
      (reorder_ids_mem_iff ns es i).2 hi
    rcases nodeById_isSome hiR with ⟨m, hm⟩
    have hmR : m ∈ reorderNodes ns es := nodeById_mem hm
    have hmid : m.id = i := nodeById_id hm
    have := reorder_mem_nodeById ns es m hmR
    rw [hmid, hu] at this
    rw [hm, hu, ← this]
  · rw [nodeById_eq_none_iff.2 hi, nodeById_eq_none_iff.2 (fun h =>
      hi ((reorder_ids_mem_iff ns es i).1 h))]

/-- The value looked up by a present id bears that id. -/
theorem lookupD_id {ns : List RouteNode} {i : Int}
    (hi : i ∈ ns.map (fun n => n.id)) : (lookupD ns i).id = i := by
  rcases nodeById_isSome hi with ⟨u, hu⟩
  rw [lookupD, hu, Option.getD_some]
  exact nodeById_id hu

/-- Keep-first deduplication relative to an already-seen set: the ids
actually emitted when a seed queue segment is drained. -/
def dedupFGo : List Int → List Int → List Int
  | [], _ => []
  | x :: xs, seen =>
    if x ∈ seen then dedupFGo xs seen else x :: dedupFGo xs (x :: seen)

theorem dedupFGo_length_le : ∀ (l seen : List Int), (dedupFGo l seen).length ≤ l.length := by
  intro l
  induction l with
  | nil => intro seen; simp [dedupFGo]
  | cons x xs ih =>
    intro seen
    rw [dedupFGo]
    by_cases h : x ∈ seen
    · rw [if_pos h]
      exact le_trans (ih seen) (Nat.le_succ _)
    · rw [if_neg h, List.length_cons, List.length_cons]
      exact Nat.succ_le_succ (ih (x :: seen))

theorem dedupFGo_subset : ∀ (l seen : List Int), ∀ x ∈ dedupFGo l seen, x ∈ l := by
  intro l
  induction l with
  | nil => intro seen x hx; simp [dedupFGo] at hx
  | cons y ys ih =>
    intro seen x hx
    rw [dedupFGo] at hx
    by_cases h : y ∈ seen
    · rw [if_pos h] at hx
      exact List.mem_cons_of_mem _ (ih seen x hx)
    · rw [if_neg h] at hx
      rcases List.mem_cons.1 hx with rfl | hx'
      · exact List.mem_cons_self _ _
      · exact List.mem_cons_of_mem _ (ih (y :: seen) x hx')

theorem dedupFGo_eq_nil : ∀ (l seen : List Int), (∀ x ∈ l, x ∈ seen) → dedupFGo l seen = [] := by
  intro l
  induction l with
  | nil => intro seen _; rfl
  | cons x xs ih =>
    intro seen h
    rw [dedupFGo, if_pos (h x (List.mem_cons_self _ _))]
    exact ih seen (fun y hy => h y (List.mem_cons_of_mem _ hy))

/-- Any out-neighbour has at least one in-edge, hence nonzero initial
in-degree. -/
theorem mem_adj_deg_ne (es : List RouteEdge) (c x : Int)
    (hx : x ∈ buildAdjacency es c) : buildInDegree es x ≠ 0 := by
  rw [buildAdjacency_eq] at hx
  rcases List.mem_map.1 hx with ⟨e, he, rfl⟩
  have hees : e ∈ es := List.mem_of_mem_filter he
  rw [buildInDegree_eq]
  have : e ∈ es.filter (fun f => decide (f.«to» = e.«to»)) :=
    List.mem_filter.2 ⟨hees, decide_eq_true rfl⟩
  have hpos := List.length_pos_of_mem this
  intro hz
  have hz' : (es.filter (fun f => decide (f.«to» = e.«to»))).length = 0 := by
    exact_mod_cast hz
  omega

/-- Once every zero-in-degree node id is visited, the loop emits only
nodes with nonzero initial in-degree. -/
theorem kahn_post_phase (ns : List RouteNode) (es : List RouteEdge) :
    ∀ (fuel : Nat) (sorted : List RouteNode) (visited queue : List Int) (deg : Int → Int),
      (∀ x ∈ queue, buildInDegree es x ≠ 0) →
      (∀ n ∈ ns, buildInDegree es n.id = 0 → n.id ∈ visited) →
      ∃ tail, kahnLoop ns (buildAdjacency es) fuel sorted visited queue deg
          = sorted ++ tail ∧ ∀ x ∈ tail, buildInDegree es x.id ≠ 0 := by
  intro fuel
  induction fuel with
  | zero =>
    intro sorted visited queue deg _ _
    exact ⟨[], by rw [kahnLoop_zero, List.append_nil], by simp⟩
  | succ fuel ih =>
    intro sorted visited queue deg hq hroots
    by_cases hlen : sorted.length < ns.length
    · cases queue with
      | nil =>
        cases hf : ns.find? (fun n => decide (n.id ∉ visited)) with
        | none => exact ⟨[], by rw [kahnLoop_break hlen hf, List.append_nil], by simp⟩
        | some n =>
          have hnv : n.id ∉ visited := by
            have := List.find?_some hf
            simpa using this
          have hmem : n ∈ ns := List.mem_of_find?_eq_some hf
          have hnroot : buildInDegree es n.id ≠ 0 :=
            fun hz => hnv (hroots n hmem hz)
          rw [kahnLoop_fallback hlen hf]
          unfold kahnVisit
          have hq' : ∀ x ∈ (processNeighbors (buildAdjacency es n.id) [] deg).1,
              buildInDegree es x ≠ 0 := by
            intro x hx
            rw [processNeighbors_queue] at hx
            rcases List.mem_append.1 hx with h | h
            · exact absurd h (List.not_mem_nil x)
            · exact mem_adj_deg_ne es n.id x (pushes_subset _ _ x h)
          have hroots' : ∀ m ∈ ns, buildInDegree es m.id = 0 → m.id ∈ n.id :: visited :=
            fun m hm hz => List.mem_cons_of_mem _ (hroots m hm hz)
          cases hnb : nodeById ns n.id with
          | none => exact ih _ _ _ _ hq' hroots'
          | some nd =>
            obtain ⟨tail, ht, hnr⟩ := ih (sorted ++ [nd]) (n.id :: visited) _ _ hq' hroots'
            refine ⟨nd :: tail, ?_, ?_⟩
            · rw [ht, List.append_assoc, List.singleton_append]
            · intro x hx
              rcases List.mem_cons.1 hx with rfl | hx'
              · rw [nodeById_id hnb]
                exact hnroot
              · exact hnr x hx'
      | cons c rest =>
        by_cases hc : c ∈ visited
        · rw [kahnLoop_skip hlen hc]
          exact ih _ _ _ _ (fun x hx => hq x (List.mem_cons_of_mem _ hx)) hroots
        · have hcroot : buildInDegree es c ≠ 0 := hq c (List.mem_cons_self _ _)
          rw [kahnLoop_visit hlen hc]
          unfold kahnVisit
          have hq' : ∀ x ∈ (processNeighbors (buildAdjacency es c) rest deg).1,
              buildInDegree es x ≠ 0 := by
            intro x hx
            rw [processNeighbors_queue] at hx
            rcases List.mem_append.1 hx with h | h
            · exact hq x (List.mem_cons_of_mem _ h)
            · exact mem_adj_deg_ne es c x (pushes_subset _ _ x h)
          have hroots' : ∀ m ∈ ns, buildInDegree es m.id = 0 → m.id ∈ c :: visited :=
            fun m hm hz => List.mem_cons_of_mem _ (hroots m hm hz)
          cases hnb : nodeById ns c with
          | none => exact ih _ _ _ _ hq' hroots'
          | some nd =>
            obtain ⟨tail, ht, hnr⟩ := ih (sorted ++ [nd]) (c :: visited) _ _ hq' hroots'
            refine ⟨nd :: tail, ?_, ?_⟩
            · rw [ht, List.append_assoc, List.singleton_append]
            · intro x hx
              rcases List.mem_cons.1 hx with rfl | hx'
              · rw [nodeById_id hnb]
                exact hcroot
              · exact hnr x hx'
    · exact ⟨[], by rw [kahnLoop_done hlen, List.append_nil], by simp⟩

/-- Draining the seed segment of the queue: while unprocessed seeds
remain at the front of the queue, the loop emits exactly the
first-occurrence deduplication of the unvisited seed ids (via the
last-entry node map), and everything emitted afterwards has nonzero
initial in-degree. -/
theorem kahn_seed_phase (ns : List RouteNode) (es : List RouteEdge) :
    ∀ (σ : List Int) (fuel : Nat) (sorted : List RouteNode) (visited t : List Int)
      (deg : Int → Int),
      (∀ x ∈ σ, buildInDegree es x = 0 ∧ x ∈ ns.map (fun n => n.id)) →
      (∀ x ∈ t, buildInDegree es x ≠ 0) →
      (∀ n ∈ ns, buildInDegree es n.id = 0 → n.id ∈ visited ∨ n.id ∈ σ) →
      BaseInv ns sorted visited →
      σ.length ≤ fuel →
      ∃ tail, kahnLoop ns (buildAdjacency es) fuel sorted visited (σ ++ t) deg
          = sorted ++ (dedupFGo σ visited).map (lookupD ns) ++ tail
          ∧ ∀ x ∈ tail, buildInDegree es x.id ≠ 0 := by
  intro σ
  induction σ with
  | nil =>
    intro fuel sorted visited t deg _ ht h3 _ _
    obtain ⟨tail, htl, hnr⟩ := kahn_post_phase ns es fuel sorted visited t deg ht
      (fun n hn hz => (h3 n hn hz).resolve_right (List.not_mem_nil _))
    refine ⟨tail, ?_, hnr⟩
    rw [List.nil_append, htl]
    simp [dedupFGo]
  | cons x σ' ih =>
    intro fuel sorted visited t deg hσ ht h3 inv hfuel
    cases fuel with
    | zero => simp at hfuel
    | succ fuel =>
      by_cases hlen : sorted.length < ns.length
      · by_cases hx : x ∈ visited
        · rw [List.cons_append, kahnLoop_skip hlen hx]
          obtain ⟨tail, htl, hnr⟩ := ih fuel sorted visited t deg
            (fun y hy => hσ y (List.mem_cons_of_mem _ hy)) ht
            (fun n hn hz => by
              rcases h3 n hn hz with h | h
              · exact Or.inl h
              · rcases List.mem_cons.1 h with rfl | h'
                · exact Or.inl hx
                · exact Or.inr h')
            inv (Nat.le_of_succ_le_succ hfuel)
          refine ⟨tail, ?_, hnr⟩
          rw [htl, dedupFGo, if_pos hx]
        · have hxid : x ∈ ns.map (fun n => n.id) := (hσ x (List.mem_cons_self _ _)).2
          rcases nodeById_isSome hxid with ⟨u, hu⟩
          have huid : u.id = x := nodeById_id hu
          rw [List.cons_append, kahnLoop_visit hlen hx]
          unfold kahnVisit
          rw [hu]
          have hinv' : BaseInv ns (sorted ++ [u]) (x :: visited) := by
            have := baseInv_visit inv hx
            rw [hu] at this
            exact this
          have hq' : ∀ y ∈ t ++ pushes (buildAdjacency es x) deg,
              buildInDegree es y ≠ 0 := by
            intro y hy
            rcases List.mem_append.1 hy with h | h
            · exact ht y h
            · exact mem_adj_deg_ne es x y (pushes_subset _ _ y h)
          have h3' : ∀ n ∈ ns, buildInDegree es n.id = 0 →
              n.id ∈ x :: visited ∨ n.id ∈ σ' := by
            intro n hn hz
            rcases h3 n hn hz with h | h
            · exact Or.inl (List.mem_cons_of_mem _ h)
            · rcases List.mem_cons.1 h with heq | h'
              · exact Or.inl (heq ▸ List.mem_cons_self _ _)
              · exact Or.inr h'
          obtain ⟨tail, htl, hnr⟩ := ih fuel (sorted ++ [u]) (x :: visited)
            (t ++ pushes (buildAdjacency es x) deg)
            (processNeighbors (buildAdjacency es x) (σ' ++ t) deg).2
            (fun y hy => hσ y (List.mem_cons_of_mem _ hy)) hq' h3' hinv'
            (Nat.le_of_succ_le_succ hfuel)
          refine ⟨tail, ?_, hnr⟩
          have hlux : lookupD ns x = u := by
            rw [lookupD, hu, Option.getD_some]
          have hdd : dedupFGo (x :: σ') visited = x :: dedupFGo σ' (x :: visited) := by
            rw [dedupFGo, if_neg hx]
          rw [processNeighbors_queue, List.append_assoc, htl, hdd, List.map_cons, hlux]
          simp
      · have hall : ∀ y ∈ x :: σ', y ∈ visited := by
          intro y hy
          by_contra hyv
          have hyid : y ∈ ns.map (fun n => n.id) := (hσ y hy).2
          have hys : y ∉ sorted.map (fun n => n.id) :=
            fun h => hyv (inv.emit_visited y h)
          have hnodup2 : (y :: sorted.map (fun n => n.id)).Nodup :=
            List.nodup_cons.2 ⟨hys, inv.emit_nodup⟩
          have hsub : (y :: sorted.map (fun n => n.id)) ⊆ ns.map (fun n => n.id) := by
            intro i hi
            rcases List.mem_cons.1 hi with rfl | hi'
            · exact hyid
            · rcases List.mem_map.1 hi' with ⟨m, hm, rfl⟩
              exact nodeById_id_mem (inv.emit_nodeById m hm)
          have hle := (List.Nodup.subperm hnodup2 hsub).length_le
          rw [List.length_cons, List.length_map, List.length_map] at hle
          omega
        refine ⟨[], ?_, by simp⟩
        rw [kahnLoop_done hlen, dedupFGo_eq_nil _ _ hall, List.map_nil,
          List.append_nil, List.append_nil]

/-- The zero-in-degree seeds of the reordered list are exactly the
first-occurrence deduplication of the original seed queue. -/
theorem initialQueue_reorder (ns : List RouteNode) (es : List RouteEdge) :
    initialQueue (reorderNodes ns es) (buildInDegree es)
      = dedupFGo (initialQueue ns (buildInDegree es)) [] := by
  have hσ : ∀ x ∈ initialQueue ns (buildInDegree es),
      buildInDegree es x = 0 ∧ x ∈ ns.map (fun n => n.id) := by
    intro x hx
    rcases List.mem_map.1 hx with ⟨n, hn, rfl⟩
    exact ⟨of_decide_eq_true (List.mem_filter.1 hn).2,
      List.mem_map.2 ⟨n, List.mem_of_mem_filter hn, rfl⟩⟩
  have h3 : ∀ n ∈ ns, buildInDegree es n.id = 0 →
      n.id ∈ ([] : List Int) ∨ n.id ∈ initialQueue ns (buildInDegree es) := by
    intro n hn hz
    exact Or.inr (List.mem_map.2 ⟨n, List.mem_filter.2 ⟨hn, decide_eq_true hz⟩, rfl⟩)
  have hfuel : (initialQueue ns (buildInDegree es)).length ≤ reorderFuel ns es := by
    have h1 : (initialQueue ns (buildInDegree es)).length ≤ ns.length := by
      rw [initialQueue, List.length_map]
      exact List.length_filter_le _ _
    rw [reorderFuel]
    omega
  obtain ⟨tail, htl, hnr⟩ := kahn_seed_phase ns es (initialQueue ns (buildInDegree es))
    (reorderFuel ns es) [] [] [] (buildInDegree es) hσ (by simp) h3 (baseInv_init ns) hfuel
  rw [List.append_nil, List.nil_append] at htl
  have hR : reorderNodes ns es
      = (dedupFGo (initialQueue ns (buildInDegree es)) []).map (lookupD ns) ++ tail := by
    rw [reorderNodes]
    exact htl
  rw [initialQueue, hR, List.filter_append]
  have hpre : ((dedupFGo (initialQueue ns (buildInDegree es)) []).map (lookupD ns)).filter
      (fun n => decide (buildInDegree es n.id = 0))
      = (dedupFGo (initialQueue ns (buildInDegree es)) []).map (lookupD ns) := by
    rw [List.filter_eq_self]
    intro a ha
    rcases List.mem_map.1 ha with ⟨i, hi, rfl⟩
    have hiσ := dedupFGo_subset _ _ i hi
    obtain ⟨hz, hid⟩ := hσ i hiσ
    rw [lookupD_id hid]
    exact decide_eq_true hz
  have htail : tail.filter (fun n => decide (buildInDegree es n.id = 0)) = [] := by
    rw [List.filter_eq_nil_iff]
    intro a ha h
    exact hnr a ha (of_decide_eq_true h)
  rw [hpre, htail, List.append_nil, List.map_map]
  have : ∀ i ∈ dedupFGo (initialQueue ns (buildInDegree es)) [],
      ((fun n => RouteNode.id n) ∘ lookupD ns) i = id i := by
    intro i hi
    have hiσ := dedupFGo_subset _ _ i hi
    exact lookupD_id (hσ i hiσ).2
  rw [List.map_congr_left this, List.map_id]

/-- Popping a seed segment with duplicated ids behaves like popping its
first-occurrence deduplication, at the cost of one fuel unit per
removed duplicate. -/
theorem kahn_dedup_seeds (ns : List RouteNode) (es : List RouteEdge) :
    ∀ (σ : List Int) (fuel : Nat) (sorted : List RouteNode) (visited B : List Int)
      (deg : Int → Int),
      phi ns es visited (dedupFGo σ visited ++ B) ≤ fuel →
      kahnLoop ns (buildAdjacency es)
        (fuel + (σ.length - (dedupFGo σ visited).length)) sorted visited (σ ++ B) deg
        = kahnLoop ns (buildAdjacency es) fuel sorted visited
            (dedupFGo σ visited ++ B) deg := by
  intro σ
  induction σ with
  | nil =>
    intro fuel sorted visited B deg _
    simp [dedupFGo]
  | cons x σ' ih =>
    intro fuel sorted visited B deg hphi
    have hfuelpos : 1 ≤ fuel := by
      have h1 : 1 ≤ phi ns es visited (dedupFGo (x :: σ') visited ++ B) := by
        simp [phi]
      omega
    obtain ⟨f, rfl⟩ : ∃ f, fuel = f + 1 := ⟨fuel - 1, by omega⟩
    have hdle := dedupFGo_length_le σ' visited
    have hdle' := dedupFGo_length_le σ' (x :: visited)
    by_cases hlen : sorted.length < ns.length
    · by_cases hx : x ∈ visited
      · have hdd : dedupFGo (x :: σ') visited = dedupFGo σ' visited := by
          rw [dedupFGo, if_pos hx]
        have hk : (f + 1) + ((x :: σ').length - (dedupFGo (x :: σ') visited).length)
            = ((f + 1) + (σ'.length - (dedupFGo σ' visited).length)) + 1 := by
          rw [hdd, List.length_cons]
          omega
        rw [hk, List.cons_append, kahnLoop_skip hlen hx]
        rw [hdd] at hphi ⊢
        exact ih (f + 1) sorted visited B deg hphi
      · have hdd : dedupFGo (x :: σ') visited = x :: dedupFGo σ' (x :: visited) := by
          rw [dedupFGo, if_neg hx]
        have hk : (f + 1) + ((x :: σ').length - (dedupFGo (x :: σ') visited).length)
            = (f + (σ'.length - (dedupFGo σ' (x :: visited)).length)) + 1 := by
          rw [hdd, List.length_cons, List.length_cons]
          omega
        rw [hk, List.cons_append, kahnLoop_visit hlen hx, hdd, List.cons_append,
          kahnLoop_visit hlen hx]
        unfold kahnVisit
        have hphi' : phi ns es (x :: visited)
            (dedupFGo σ' (x :: visited) ++ (B ++ pushes (buildAdjacency es x) deg)) ≤ f := by
          have hstep := phi_visit_le ns es (dedupFGo σ' (x :: visited) ++ B) deg hx
          rw [hdd] at hphi
          rw [processNeighbors_queue, List.append_assoc] at hstep
          have hphi2 : phi ns es visited (x :: (dedupFGo σ' (x :: visited) ++ B))
              ≤ f + 1 := by
            rw [← List.cons_append]
            exact hphi
          omega
        have hq1 : (processNeighbors (buildAdjacency es x) (σ' ++ B) deg).1
            = σ' ++ (B ++ pushes (buildAdjacency es x) deg) := by
          rw [processNeighbors_queue, List.append_assoc]
        have hq2 : (processNeighbors (buildAdjacency es x)
            (dedupFGo σ' (x :: visited) ++ B) deg).1
            = dedupFGo σ' (x :: visited) ++ (B ++ pushes (buildAdjacency es x) deg) := by
          rw [processNeighbors_queue, List.append_assoc]
        have hd1 : (processNeighbors (buildAdjacency es x) (σ' ++ B) deg).2
            = (processNeighbors (buildAdjacency es x)
                (dedupFGo σ' (x :: visited) ++ B) deg).2 := by
          rw [processNeighbors_deg, processNeighbors_deg]
        rw [hq1, hq2, hd1]
        exact ih f _ (x :: visited) (B ++ pushes (buildAdjacency es x) deg) _ hphi'
    · have hk : ∃ g, (f + 1) + ((x :: σ').length - (dedupFGo (x :: σ') visited).length)
          = g + 1 := ⟨f + ((x :: σ').length - (dedupFGo (x :: σ') visited).length), by omega⟩
      obtain ⟨g, hg⟩ := hk
      rw [hg, kahnLoop_done hlen, kahnLoop_done hlen]

/-- Running the loop on the deduplicated seed queue (with the standard
fuel) also computes `reorderNodes`. -/
theorem kahn_entry_dedup (ns : List RouteNode) (es : List RouteEdge) :
    kahnLoop ns (buildAdjacency es) (reorderFuel ns es) [] []
      (dedupFGo (initialQueue ns (buildInDegree es)) []) (buildInDegree es)
      = reorderNodes ns es := by
  have hσlen : (initialQueue ns (buildInDegree es)).length ≤ ns.length := by
    rw [initialQueue, List.length_map]
    exact List.length_filter_le _ _
  have hdlen := dedupFGo_length_le (initialQueue ns (buildInDegree es)) ([] : List Int)
  have hE : (es.filter (fun e => decide (e.«from» ∉ ([] : List Int)))).length ≤ es.length :=
    List.length_filter_le _ _
  have hN : (ns.filter (fun n => decide (n.id ∉ ([] : List Int)))).length ≤ ns.length :=
    List.length_filter_le _ _
  have hphi : phi ns es []
      (dedupFGo (initialQueue ns (buildInDegree es)) [] ++ [])
      ≤ reorderFuel ns es
        - ((initialQueue ns (buildInDegree es)).length
            - (dedupFGo (initialQueue ns (buildInDegree es)) []).length) := by
    simp only [phi, List.append_nil, reorderFuel]
    omega
  have h1 := kahn_dedup_seeds ns es (initialQueue ns (buildInDegree es))
    (reorderFuel ns es
      - ((initialQueue ns (buildInDegree es)).length
          - (dedupFGo (initialQueue ns (buildInDegree es)) []).length))
    [] [] [] (buildInDegree es) hphi
  have hfk : (reorderFuel ns es
      - ((initialQueue ns (buildInDegree es)).length
          - (dedupFGo (initialQueue ns (buildInDegree es)) []).length))
      + ((initialQueue ns (buildInDegree es)).length
          - (dedupFGo (initialQueue ns (buildInDegree es)) []).length)
      = reorderFuel ns es := by
    simp only [reorderFuel]
    omega
  rw [hfk, List.append_nil, List.append_nil] at h1
  have hphi2 : phi ns es [] (dedupFGo (initialQueue ns (buildInDegree es)) [])
      ≤ reorderFuel ns es
        - ((initialQueue ns (buildInDegree es)).length
            - (dedupFGo (initialQueue ns (buildInDegree es)) []).length) := by
    simpa using hphi
  have hphi3 : phi ns es [] (dedupFGo (initialQueue ns (buildInDegree es)) [])
      ≤ reorderFuel ns es := by
    refine le_trans hphi2 ?_
    omega
  have h3 := kahnLoop_fuel_irrel ns es (reorderFuel ns es)
    (reorderFuel ns es
      - ((initialQueue ns (buildInDegree es)).length
          - (dedupFGo (initialQueue ns (buildInDegree es)) []).length))
    [] [] (dedupFGo (initialQueue ns (buildInDegree es)) []) (buildInDegree es)
    hphi3 hphi2
  rw [h3, ← h1, reorderNodes]

/-- Retracing: a run on the reordered node list follows the original
run state for state, because the length check, the node lookup and the
fallback choice all agree along the original run's trajectory. -/
theorem kahn_retrace (ns : List RouteNode) (es : List RouteEdge) :
    ∀ (fuel : Nat) (sorted : List RouteNode) (visited queue : List Int) (deg : Int → Int),
      BaseInv ns sorted visited →
      kahnLoop ns (buildAdjacency es) fuel sorted visited queue deg = reorderNodes ns es →
      kahnLoop (reorderNodes ns es) (buildAdjacency es) fuel sorted visited queue deg
        = reorderNodes ns es := by
  have hRlen : (reorderNodes ns es).length ≤ ns.length := by
    rw [reorder_length]
    calc (ns.map (fun n => n.id)).dedup.length
        ≤ (ns.map (fun n => n.id)).length := (List.dedup_sublist _).length_le
      _ = ns.length := List.length_map _ _
  intro fuel
  induction fuel with
  | zero =>
    intro sorted visited queue deg _ hcont
    rw [kahnLoop_zero] at hcont ⊢
    exact hcont
  | succ fuel ih =>
    intro sorted visited queue deg inv hcont
    by_cases hlen2 : sorted.length < (reorderNodes ns es).length
    · have hlen1 : sorted.length < ns.length := lt_of_lt_of_le hlen2 hRlen
      cases queue with
      | cons c rest =>
        by_cases hc : c ∈ visited
        · rw [kahnLoop_skip hlen2 hc]
          rw [kahnLoop_skip hlen1 hc] at hcont
          exact ih _ _ _ _ inv hcont
        · rw [kahnLoop_visit hlen2 hc]
          rw [kahnLoop_visit hlen1 hc] at hcont
          unfold kahnVisit at hcont ⊢
          rw [nodeById_reorder_eq]
          exact ih _ _ _ _ (baseInv_visit inv hc) hcont
      | nil =>
        cases hf : ns.find? (fun n => decide (n.id ∉ visited)) with
        | none =>
          rw [kahnLoop_break hlen1 hf] at hcont
          have hfR : (reorderNodes ns es).find? (fun n => decide (n.id ∉ visited)) = none := by
            rw [List.find?_eq_none]
            intro m hm hdec
            have hmv : m.id ∉ visited := of_decide_eq_true hdec
            have hmid : m.id ∈ ns.map (fun n => n.id) :=
              nodeById_id_mem (reorder_mem_nodeById ns es m hm)
            rcases List.mem_map.1 hmid with ⟨n, hn, heq⟩
            have := List.find?_eq_none.1 hf n hn
            simp only [decide_eq_true_eq, Decidable.not_not] at this
            exact hmv (heq ▸ this)
          rw [kahnLoop_break hlen2 hfR]
          exact hcont
        | some n =>
          have hnv : n.id ∉ visited := by
            have := List.find?_some hf
            simpa using this
          have hmem : n ∈ ns := List.mem_of_find?_eq_some hf
          have hnid : n.id ∈ ns.map (fun n => n.id) := List.mem_map.2 ⟨n, hmem, rfl⟩
          rcases nodeById_isSome hnid with ⟨u, hu⟩
          have huid : u.id = n.id := nodeById_id hu
          rw [kahnLoop_fallback hlen1 hf] at hcont
          unfold kahnVisit at hcont
          rw [hu] at hcont
          obtain ⟨t, ht⟩ := kahnLoop_prefix ns (buildAdjacency es) fuel (sorted ++ [u])
            (n.id :: visited) (processNeighbors (buildAdjacency es n.id) [] deg).1
            (processNeighbors (buildAdjacency es n.id) [] deg).2
          rw [hcont] at ht
          have hfR : (reorderNodes ns es).find? (fun m => decide (m.id ∉ visited))
              = some u := by
            rw [ht, List.append_assoc, List.singleton_append, List.find?_append]
            have h1 : sorted.find? (fun m => decide (m.id ∉ visited)) = none := by
              rw [List.find?_eq_none]
              intro m hm hdec
              exact (of_decide_eq_true hdec)
                (inv.emit_visited m.id (List.mem_map.2 ⟨m, hm, rfl⟩))
            rw [h1]
            have h2 : (fun m : RouteNode => decide (m.id ∉ visited)) u = true :=
              decide_eq_true (by rw [huid]; exact hnv)
            rw [@List.find?_cons_of_pos RouteNode
              (fun m => decide (m.id ∉ visited)) u t h2]
            rfl
          rw [kahnLoop_fallback hlen2 hfR]
          unfold kahnVisit
          rw [huid, nodeById_reorder_eq, hu]
          have inv' : BaseInv ns (sorted ++ [u]) (n.id :: visited) := by
            have := baseInv_visit inv hnv
            rw [hu] at this
            exact this
          exact ih _ _ _ _ inv' hcont
    · rw [kahnLoop_done hlen2]
      obtain ⟨t, ht⟩ := kahnLoop_prefix ns (buildAdjacency es) (fuel + 1)
        sorted visited queue deg
      rw [hcont] at ht
      have hlent := congrArg List.length ht
      rw [List.length_append] at hlent
      have htnil : t = [] := by
        have : t.length = 0 := by omega
        exact List.length_eq_zero.1 this
      rw [ht, htnil, List.append_nil]

/-- Idempotence of `reorderNodes`, for every node list (duplicate ids
included) and every edge list. -/
theorem reorderNodes_idem (ns : List RouteNode) (es : List RouteEdge) :
    reorderNodes (reorderNodes ns es) es = reorderNodes ns es := by
  have hcont : kahnLoop ns (buildAdjacency es) (reorderFuel ns es) [] []
      (initialQueue (reorderNodes ns es) (buildInDegree es)) (buildInDegree es)
      = reorderNodes ns es := by
    rw [initialQueue_reorder]
    exact kahn_entry_dedup ns es
  have hretr := kahn_retrace ns es (reorderFuel ns es) [] []
    (initialQueue (reorderNodes ns es) (buildInDegree es)) (buildInDegree es)
    (baseInv_init ns) hcont
  have hRlen : (reorderNodes ns es).length ≤ ns.length := by
    rw [reorder_length]
    calc (ns.map (fun n => n.id)).dedup.length
        ≤ (ns.map (fun n => n.id)).length := (List.dedup_sublist _).length_le
      _ = ns.length := List.length_map _ _
  have hQlen : (initialQueue (reorderNodes ns es) (buildInDegree es)).length
      ≤ (reorderNodes ns es).length := by
    rw [initialQueue, List.length_map]
    exact List.length_filter_le _ _
  have hE : (es.filter (fun e => decide (e.«from» ∉ ([] : List Int)))).length ≤ es.length :=
    List.length_filter_le _ _
  have hN : ((reorderNodes ns es).filter
      (fun n => decide (n.id ∉ ([] : List Int)))).length ≤ (reorderNodes ns es).length :=
    List.length_filter_le _ _
  have hphiR : phi (reorderNodes ns es) es []
      (initialQueue (reorderNodes ns es) (buildInDegree es))
      ≤ reorderFuel (reorderNodes ns es) es := by
    simp only [phi, reorderFuel]
    omega
  have hphiN : phi (reorderNodes ns es) es []
      (initialQueue (reorderNodes ns es) (buildInDegree es))
      ≤ reorderFuel ns es := by
    refine le_trans hphiR ?_
    simp only [reorderFuel]
    omega
  rw [reorderNodes]
  rw [kahnLoop_fuel_irrel (reorderNodes ns es) es
    (reorderFuel (reorderNodes ns es) es) (reorderFuel ns es) [] []
    (initialQueue (reorderNodes ns es) (buildInDegree es)) (buildInDegree es)
    hphiR hphiN]
  exact hretr

end Idempotence











section Claims

/-- C1, counterexample: with two distinct nodes that share id `1`, the
Graph Orderer returns a single node — not a permutation of the input
list — so the claim fails on node lists with duplicated ids. -/
theorem c1_counterexample :
    ¬ (reorderNodes
        [⟨1, "a", "", .OTHER, none⟩, ⟨1, "b", "", .OTHER, none⟩] []).Perm
        [⟨1, "a", "", .OTHER, none⟩, ⟨1, "b", "", .OTHER, none⟩] := by decide

/-- C1, amended: whenever the input node ids are pairwise distinct (the
data model's stated invariant), `reorderNodes` returns a permutation of
the input node list — every node exactly once, for every edge list
including malformed ones. -/
theorem c1_reorder_perm (ns : List RouteNode) (es : List RouteEdge)
    (h : (ns.map (fun n => n.id)).Nodup) :
    (reorderNodes ns es).Perm ns :=
  reorder_perm_of_nodup ns es h

/-- Witness for C1 at a concrete malformed-edge input. -/
theorem c1_reorder_perm_witness :
    (([⟨1, "a", "", .OTHER, none⟩, ⟨2, "b", "", .OTHER, none⟩] :
        List RouteNode).map (fun n => n.id)).Nodup
      ∧ (reorderNodes [⟨1, "a", "", .OTHER, none⟩, ⟨2, "b", "", .OTHER, none⟩]
          [⟨9, 1, .WALK, "", "", none⟩, ⟨2, 2, .BUS, "", "", none⟩]).Perm
          [⟨1, "a", "", .OTHER, none⟩, ⟨2, "b", "", .OTHER, none⟩] :=
  ⟨by decide, c1_reorder_perm _ _ (by decide)⟩

/-- C2: when the node ids are pairwise distinct, every edge endpoint
names a node, and the edge set is acyclic — witnessed by a topological
rank `f` increasing along every edge, which exists exactly when the
edges form a DAG (in particular for a single valid DAG with one
source) — the output of `reorderNodes` respects every edge direction:
the source node appears strictly before the target node. -/
theorem c2_dag_edge_order (ns : List RouteNode) (es : List RouteEdge)
    (hnd : (ns.map (fun n => n.id)).Nodup)
    (hwf : ∀ e ∈ es, e.«from» ∈ ns.map (fun n => n.id) ∧ e.«to» ∈ ns.map (fun n => n.id))
    (f : Int → Nat) (hf : ∀ e ∈ es, f e.«from» < f e.«to») :
    ∀ e ∈ es,
      ((reorderNodes ns es).map (fun n => n.id)).indexOf e.«from»
        < ((reorderNodes ns es).map (fun n => n.id)).indexOf e.«to» := by
  intro e he
  have hout := kahn_ordered ns es hnd hwf f hf (reorderFuel ns es) [] []
    (initialQueue ns (buildInDegree es)) (buildInDegree es) (orderInv_init ns es)
  have hto : e.«to» ∈ (reorderNodes ns es).map (fun n => n.id) :=
    (reorder_ids_mem_iff ns es _).2 (hwf e he).2
  exact (hout e he hto).2

/-- Witness for C2 on the path DAG 1 → 2 → 3. -/
theorem c2_dag_edge_order_witness :
    ((reorderNodes
        [⟨1, "a", "", .OTHER, none⟩, ⟨2, "b", "", .OTHER, none⟩, ⟨3, "c", "", .OTHER, none⟩]
        [⟨1, 2, .WALK, "", "", none⟩, ⟨2, 3, .BUS, "", "", none⟩]).map
          (fun n => n.id)).indexOf (1 : Int)
      < ((reorderNodes
        [⟨1, "a", "", .OTHER, none⟩, ⟨2, "b", "", .OTHER, none⟩, ⟨3, "c", "", .OTHER, none⟩]
        [⟨1, 2, .WALK, "", "", none⟩, ⟨2, 3, .BUS, "", "", none⟩]).map
          (fun n => n.id)).indexOf (2 : Int) :=
  c2_dag_edge_order _ _ (by decide) (by decide) (fun i => i.toNat) (by decide)
    ⟨1, 2, .WALK, "", "", none⟩ (by decide)

/-- C3: `reorderNodes` is a total function whose fuel always suffices
(`reorderNodes_sound`), and its output realises exactly the input node
ids for every input; in particular the two-node cycle 1→2→1 and an
edgeless node both come back in full. -/
theorem c3_reorder_total (ns : List RouteNode) (es : List RouteEdge) :
    (∀ i, i ∈ (reorderNodes ns es).map (fun n => n.id)
        ↔ i ∈ ns.map (fun n => n.id))
      ∧ reorderNodes [⟨1, "a", "", .OTHER, none⟩, ⟨2, "b", "", .OTHER, none⟩]
          [⟨1, 2, .WALK, "", "", none⟩, ⟨2, 1, .WALK, "", "", none⟩]
          = [⟨1, "a", "", .OTHER, none⟩, ⟨2, "b", "", .OTHER, none⟩]
      ∧ reorderNodes [⟨7, "x", "", .OTHER, none⟩] [] = [⟨7, "x", "", .OTHER, none⟩] :=
  ⟨reorder_ids_mem_iff ns es, by decide, by decide⟩

/-- C4, counterexample: an edge from the nonexistent id `9` into node
`1` changes the output order (node `1` keeps in-degree 1, so node `2`
is seeded first), hence dropping edges with absent endpoints does not
leave the result unchanged. -/
theorem c4_counterexample :
    ¬ reorderNodes [⟨1, "a", "", .OTHER, none⟩, ⟨2, "b", "", .OTHER, none⟩]
        [⟨9, 1, .WALK, "", "", none⟩]
      = reorderNodes [⟨1, "a", "", .OTHER, none⟩, ⟨2, "b", "", .OTHER, none⟩]
        (([⟨9, 1, .WALK, "", "", none⟩] : List RouteEdge).filter
          (edgeEndpointsPresent [⟨1, "a", "", .OTHER, none⟩, ⟨2, "b", "", .OTHER, none⟩])) := by
  decide

/-- C4, amended: edges with absent endpoints are tolerated without
error and never inject foreign nodes: the output is always a
permutation of the output on the filtered edge list (same nodes, same
multiplicities); only the order may differ, because such edges still
contribute to in-degrees. -/
theorem c4_skip_perm (ns : List RouteNode) (es : List RouteEdge) :
    (reorderNodes ns es).Perm
      (reorderNodes ns (es.filter (edgeEndpointsPresent ns))) :=
  reorder_perm_reorder ns es (es.filter (edgeEndpointsPresent ns))

/-- C9: `reorderNodes` is idempotent — feeding its output back in as
the node order, with the same edge set, returns the same sequence
unchanged, for every node list and edge list. -/
theorem c9_reorder_idem (ns : List RouteNode) (es : List RouteEdge) :
    reorderNodes (reorderNodes ns es) es = reorderNodes ns es :=
  reorderNodes_idem ns es

/-- C10: duplicated ids collapse — the output has pairwise distinct
ids, realises exactly the distinct input ids, each output node is the
last input node bearing its id, the output length is the number of
distinct ids, and it equals the input length exactly when ids are
unique. -/
theorem c10_duplicate_ids (ns : List RouteNode) (es : List RouteEdge) :
    (∀ n ∈ reorderNodes ns es,
        (ns.filter (fun m => decide (m.id = n.id))).getLast? = some n)
      ∧ ((reorderNodes ns es).map (fun n => n.id)).Nodup
      ∧ (∀ i, i ∈ (reorderNodes ns es).map (fun n => n.id)
          ↔ i ∈ ns.map (fun n => n.id))
      ∧ (reorderNodes ns es).length = (ns.map (fun n => n.id)).dedup.length
      ∧ ((reorderNodes ns es).length = ns.length
          ↔ (ns.map (fun n => n.id)).Nodup) := by
  refine ⟨?_, reorder_ids_nodup ns es, reorder_ids_mem_iff ns es,
    reorder_length ns es, ?_, ?_⟩
  · intro n hn
    rw [← nodeById_eq_getLast]
    exact reorder_mem_nodeById ns es n hn
  · intro hlen
    rw [reorder_length ns es] at hlen
    have hsub := List.dedup_sublist (ns.map (fun n => n.id))
    have heq : (ns.map (fun n => n.id)).dedup = ns.map (fun n => n.id) :=
      hsub.eq_of_length (by rw [hlen, List.length_map])
    rw [← heq]
    exact List.nodup_dedup _
  · intro hnd
    rw [reorder_length ns es, List.Nodup.dedup hnd, List.length_map]

end Claims





attribute [local semireducible] Rat.mul Rat.add Rat.sub Rat.inv Rat.ofScientific

section Timeline

/-- Accumulated numeric value of a digit run (the exact semantics of
`parseInt` on a digit string). -/
def natVal (cs : List Char) : Nat :=
  cs.foldl (fun a c => 10 * a + (c.toNat - Char.toNat '0')) 0

/-- Exact value of `parseFloat` on a captured group of shape
`digits` or `digits.digits`, as a rational. -/
def parseFloatQ (cs : List Char) : Rat :=
  let d := cs.takeWhile Char.isDigit
  let rest := cs.dropWhile Char.isDigit
  match rest with
  | '.' :: f => (natVal d : Rat) + (natVal (f.takeWhile Char.isDigit) : Rat)
      / ((10 : Rat) ^ (f.takeWhile Char.isDigit).length)
  | _ => (natVal d : Rat)

/-- Match of the regex `(\d+(\.\d+)?)小时` anchored at the start of
`cs`; returns the captured group.  At a fixed start position the match
is forced: the digit run is maximal and the optional fractional part is
taken exactly when a dot, digits and the hour marker follow. -/
def hourFrom (cs : List Char) : Option (List Char) :=
  let d := cs.takeWhile Char.isDigit
  let rest := cs.dropWhile Char.isDigit
  if d = [] then none
  else if rest.take 2 = ['小', '时'] then some d
  else if rest.head? = some '.' then
    let f := rest.tail.takeWhile Char.isDigit
    let r3 := rest.tail.dropWhile Char.isDigit
    if f ≠ [] ∧ r3.take 2 = ['小', '时'] then some (d ++ '.' :: f) else none
  else none

/-- Leftmost match of `(\d+(\.\d+)?)小时` (the regex `match` of
JavaScript scans start positions left to right). -/
def searchHour : List Char → Option (List Char)
  | [] => none
  | c :: rest =>
    match hourFrom (c :: rest) with
    | some g => some g
    | none => searchHour rest

/-- Match of `(\d+)分` anchored at the start of `cs`. -/
def minFrom (cs : List Char) : Option (List Char) :=
  let d := cs.takeWhile Char.isDigit
  let rest := cs.dropWhile Char.isDigit
  if d = [] then none
  else if rest.take 1 = ['分'] then some d else none

/-- Leftmost match of `(\d+)分`. -/
def searchMin : List Char → Option (List Char)
  | [] => none
  | c :: rest =>
    match minFrom (c :: rest) with
    | some g => some g
    | none => searchMin rest

/-- `parseDurationToMinutes` from the SmartRoute component.  `!str`
catches both `undefined` and the empty string; the hour and minute
matches contribute `parseFloat(h) * 60` and `parseInt(m)`; a bare digit
string with neither contribution is taken as literal minutes. -/
def parseDurationToMinutes (str : Option String) : Rat :=
  match str with
  | none => 0
  | some s =>
    if s = "" then 0
    else
      let minutes₁ : Rat :=
        match searchHour s.toList with
        | some g => parseFloatQ g * 60
        | none => 0
      let minutes₂ : Rat := minutes₁ +
        (match searchMin s.toList with
         | some d => (natVal d : Rat)
         | none => 0)
      if minutes₂ = 0 ∧ s.toList.all Char.isDigit = true
      then (natVal s.toList : Rat) else minutes₂

/-- JavaScript `Math.trunc` on a rational. -/
def ratTrunc (q : Rat) : Int :=
  if 0 ≤ q then Rat.floor q else -Rat.floor (-q)

/-- JavaScript `%` (truncated remainder) on rationals. -/
def jsFmod (a b : Rat) : Rat :=
  a - b * ((ratTrunc (a / b) : Int) : Rat)

/-- `String.padStart(2, '0')`. -/
def padStart2 (s : String) : String :=
  if s.length < 2 then String.mk (List.replicate (2 - s.length) '0') ++ s else s

/-- `formatTime` from the SmartRoute component: hours are
`Math.floor(m / 60) % 24` (JavaScript `%` truncates), minutes are
`Math.floor(m % 60)`, both zero-padded to two digits. -/
def formatTime (minutesFromMidnight : Rat) : String :=
  let h : Int := (Rat.floor (minutesFromMidnight / 60)).tmod 24
  let m : Int := Rat.floor (jsFmod minutesFromMidnight 60)
  padStart2 (toString h) ++ ":" ++ padStart2 (toString m)

/-- JavaScript `s || d` for an optional string: `undefined` and `""`
are falsy. -/
def jsOrDefault (s : Option String) (d : String) : String :=
  match s with
  | none => d
  | some t => if t = "" then d else t

/-- Numeric skeleton of the timeline computation: for each node of the
ordered sequence, its arrival and departure clock values in minutes. -/
def clockTrace (edges : List RouteEdge) :
    Option RouteNode → Rat → List RouteNode → List (Int × Rat × Rat)
  | _, _, [] => []
  | prev, cur, node :: rest =>
    let travelTime : Rat :=
      match prev with
      | none => 0
      | some p =>
        match edges.find? (fun e =>
            decide (e.«from» = p.id) && decide (e.«to» = node.id)) with
        | some e => parseDurationToMinutes (some e.duration)
        | none => 15
    let t1 := cur + travelTime
    let stay := parseDurationToMinutes (some (jsOrDefault node.estimatedStay "30分钟"))
    let t2 := t1 + stay
    (node.id, t1, t2) :: clockTrace edges (some node) t2 rest

/-- The timeline loop of `nodeTimeline`: running clock, travel advance
from the matching edge (default 15), arrival, stay advance (default
"30分钟"), departure. -/
def timelineGo (edges : List RouteEdge) :
    Option RouteNode → Rat → List RouteNode → List (Int × String × String)
  | _, _, [] => []
  | prev, cur, node :: rest =>
    let travelTime : Rat :=
      match prev with
      | none => 0
      | some p =>
        match edges.find? (fun e =>
            decide (e.«from» = p.id) && decide (e.«to» = node.id)) with
        | some e => parseDurationToMinutes (some e.duration)
        | none => 15
    let t1 := cur + travelTime
    let stay := parseDurationToMinutes (some (jsOrDefault node.estimatedStay "30分钟"))
    let t2 := t1 + stay
    (node.id, formatTime t1, formatTime t2) :: timelineGo edges (some node) t2 rest

/-- `nodeTimeline` from the SmartRoute component: reorder the plan's
nodes, then walk them with a running clock starting at `9 * 60`
(09:00), recording formatted arrival/departure per node id. -/
def nodeTimeline (plan : RoutePlan) : List (Int × String × String) :=
  timelineGo plan.edges none (9 * 60) (reorderNodes plan.nodes plan.edges)

/-- The travel advance applied before a node's arrival: zero for the
first node, otherwise the parsed duration of the edge matching
(prev, node) or the default 15. -/
def travelOf (edges : List RouteEdge) (prev : Option RouteNode)
    (node : RouteNode) : Rat :=
  match prev with
  | none => 0
  | some p =>
    match edges.find? (fun e =>
        decide (e.«from» = p.id) && decide (e.«to» = node.id)) with
    | some e => parseDurationToMinutes (some e.duration)
    | none => 15

/-- The stay advance applied between a node's arrival and departure. -/
def stayOf (node : RouteNode) : Rat :=
  parseDurationToMinutes (some (jsOrDefault node.estimatedStay "30分钟"))

end Timeline

section TraceLemmas

theorem clockTrace_cons (edges : List RouteEdge) (prev : Option RouteNode)
    (cur : Rat) (node : RouteNode) (rest : List RouteNode) :
    clockTrace edges prev cur (node :: rest)
      = (node.id, cur + travelOf edges prev node,
          cur + travelOf edges prev node + stayOf node)
        :: clockTrace edges (some node)
            (cur + travelOf edges prev node + stayOf node) rest := rfl

theorem timelineGo_cons (edges : List RouteEdge) (prev : Option RouteNode)
    (cur : Rat) (node : RouteNode) (rest : List RouteNode) :
    timelineGo edges prev cur (node :: rest)
      = (node.id, formatTime (cur + travelOf edges prev node),
          formatTime (cur + travelOf edges prev node + stayOf node))
        :: timelineGo edges (some node)
            (cur + travelOf edges prev node + stayOf node) rest := rfl

theorem timelineGo_eq_trace (edges : List RouteEdge) (ns : List RouteNode) :
    ∀ (prev : Option RouteNode) (cur : Rat),
      timelineGo edges prev cur ns
        = (clockTrace edges prev cur ns).map
            (fun x => (x.1, formatTime x.2.1, formatTime x.2.2)) := by
  induction ns with
  | nil => intro prev cur; rfl
  | cons n rest ih =>
    intro prev cur
    rw [timelineGo_cons, clockTrace_cons, List.map_cons, ih]

theorem clockTrace_first (edges : List RouteEdge) (cur : Rat)
    (node : RouteNode) (rest : List RouteNode) :
    (clockTrace edges none cur (node :: rest)).head?
      = some (node.id, cur, cur + stayOf node) := by
  rw [clockTrace_cons, List.head?_cons]
  have h0 : travelOf edges none node = 0 := rfl
  rw [h0, add_zero]

theorem clockTrace_step (edges : List RouteEdge) (ns : List RouteNode) :
    ∀ (prev : Option RouteNode) (cur : Rat) (i : Nat) (p q : Int × Rat × Rat),
      (clockTrace edges prev cur ns).get? i = some p →
      (clockTrace edges prev cur ns).get? (i + 1) = some q →
      ∃ prevN curN, ns.get? i = some prevN ∧ ns.get? (i + 1) = some curN ∧
        p.1 = prevN.id ∧ q.1 = curN.id ∧
        q.2.1 = p.2.2 + travelOf edges (some prevN) curN := by
  induction ns with
  | nil =>
    intro prev cur i p q hp _
    rw [show clockTrace edges prev cur [] = [] from rfl, List.get?_nil] at hp
    cases hp
  | cons n rest ih =>
    intro prev cur i p q hp hq
    rw [clockTrace_cons] at hp hq
    cases i with
    | zero =>
      rw [List.get?_cons_zero] at hp
      rw [List.get?_cons_succ] at hq
      have hp' := Option.some.inj hp
      cases rest with
      | nil =>
        rw [show clockTrace edges (some n) _ [] = [] from rfl, List.get?_nil] at hq
        cases hq
      | cons c rest' =>
        rw [clockTrace_cons, List.get?_cons_zero] at hq
        have hq' := Option.some.inj hq
        subst hp'
        subst hq'
        exact ⟨n, c, rfl, rfl, rfl, rfl, rfl⟩
    | succ j =>
      rw [List.get?_cons_succ] at hp hq
      obtain ⟨pn, cn, h1, h2, h3, h4, h5⟩ := ih (some n) _ j p q hp hq
      refine ⟨pn, cn, ?_, ?_, h3, h4, h5⟩
      · rw [List.get?_cons_succ]; exact h1
      · rw [List.get?_cons_succ]; exact h2

end TraceLemmas

section ParserLemmas

theorem takeWhile_digits_of_append (D rest : List Char)
    (hD : ∀ c ∈ D, c.isDigit = true)
    (hrest : ∀ c, rest.head? = some c → c.isDigit = false) :
    (D ++ rest).takeWhile Char.isDigit = D
      ∧ (D ++ rest).dropWhile Char.isDigit = rest := by
  induction D with
  | nil =>
    cases rest with
    | nil => exact ⟨rfl, rfl⟩
    | cons r rest' =>
      have hr := hrest r rfl
      constructor
      · rw [List.nil_append, List.takeWhile_cons, if_neg (by rw [hr]; exact Bool.false_ne_true)]
      · rw [List.nil_append, List.dropWhile_cons, if_neg (by rw [hr]; exact Bool.false_ne_true)]
  | cons d D' ih =>
    have hd := hD d (List.mem_cons_self _ _)
    obtain ⟨h1, h2⟩ := ih (fun c hc => hD c (List.mem_cons_of_mem _ hc))
    constructor
    · rw [List.cons_append, List.takeWhile_cons, if_pos hd, h1]
    · rw [List.cons_append, List.dropWhile_cons, if_pos hd, h2]

theorem takeWhile_digits_self (D : List Char) (hD : ∀ c ∈ D, c.isDigit = true) :
    D.takeWhile Char.isDigit = D ∧ D.dropWhile Char.isDigit = [] := by
  have h := takeWhile_digits_of_append D [] hD (fun c hc => by simp at hc)
  rwa [List.append_nil] at h

theorem toList_mk (cs : List Char) : (String.mk cs).toList = cs := rfl

theorem mk_ne_empty (cs : List Char) (h : cs ≠ []) : String.mk cs ≠ "" :=
  fun he => h (congrArg String.toList he)

theorem take1_cons (c : Char) (X : List Char) : (c :: X).take 1 = [c] := rfl

theorem take2_cons (c d : Char) (X : List Char) : (c :: d :: X).take 2 = [c, d] := rfl

theorem dropWhile_not_digit (c : Char) (X : List Char) (hc : c.isDigit = false) :
    (c :: X).dropWhile Char.isDigit = c :: X := by
  rw [List.dropWhile_cons, if_neg (by rw [hc]; exact Bool.false_ne_true)]

theorem takeWhile_nil_not_digit (c : Char) (X : List Char) (hc : c.isDigit = false) :
    (c :: X).takeWhile Char.isDigit = [] := by
  rw [List.takeWhile_cons, if_neg (by rw [hc]; exact Bool.false_ne_true)]

theorem parseFloatQ_digits (D : List Char) (hD : ∀ c ∈ D, c.isDigit = true) :
    parseFloatQ D = (natVal D : Rat) := by
  obtain ⟨h1, h2⟩ := takeWhile_digits_self D hD
  simp only [parseFloatQ, h1, h2]

theorem parseFloatQ_dec (D F : List Char)
    (hD : ∀ c ∈ D, c.isDigit = true) (hF : ∀ c ∈ F, c.isDigit = true) :
    parseFloatQ (D ++ '.' :: F)
      = (natVal D : Rat) + (natVal F : Rat) / (10 : Rat) ^ F.length := by
  obtain ⟨h1, h2⟩ := takeWhile_digits_of_append D ('.' :: F) hD
    (fun c hc => by
      simp only [List.head?_cons, Option.some.injEq] at hc
      subst hc; rfl)
  obtain ⟨hf1, _⟩ := takeWhile_digits_self F hF
  simp only [parseFloatQ, h1, h2, hf1]

theorem hourFrom_take_nil (cs : List Char) (h : cs.takeWhile Char.isDigit = []) :
    hourFrom cs = none := by
  simp only [hourFrom]
  rw [if_pos h]

theorem minFrom_take_nil (cs : List Char) (h : cs.takeWhile Char.isDigit = []) :
    minFrom cs = none := by
  simp only [minFrom]
  rw [if_pos h]

theorem hourFrom_none (cs : List Char)
    (h1 : (cs.dropWhile Char.isDigit).take 2 ≠ ['小', '时'])
    (h2 : (cs.dropWhile Char.isDigit).head? ≠ some '.') :
    hourFrom cs = none := by
  simp only [hourFrom]
  by_cases hd : cs.takeWhile Char.isDigit = []
  · rw [if_pos hd]
  · rw [if_neg hd, if_neg h1, if_neg h2]

theorem minFrom_none (cs : List Char)
    (h1 : (cs.dropWhile Char.isDigit).take 1 ≠ ['分']) :
    minFrom cs = none := by
  simp only [minFrom]
  by_cases hd : cs.takeWhile Char.isDigit = []
  · rw [if_pos hd]
  · rw [if_neg hd, if_neg h1]

theorem hourFrom_none_head (c : Char) (X : List Char) (hc : c.isDigit = false)
    (h1 : c ≠ '小') (h2 : c ≠ '.') : hourFrom (c :: X) = none := by
  apply hourFrom_none
  · rw [dropWhile_not_digit c X hc, List.take_succ_cons]
    intro h
    injection h with hh _
    exact h1 hh
  · rw [dropWhile_not_digit c X hc, List.head?_cons]
    intro h
    injection h with hh
    exact h2 hh

theorem minFrom_none_head (c : Char) (X : List Char) (hc : c.isDigit = false)
    (hne : c ≠ '分') : minFrom (c :: X) = none := by
  apply minFrom_none
  rw [dropWhile_not_digit c X hc, take1_cons]
  intro h
  injection h with hh _
  exact hne hh

theorem hourFrom_marker (D R : List Char) (hne : D ≠ [])
    (hD : ∀ c ∈ D, c.isDigit = true) :
    hourFrom (D ++ '小' :: '时' :: R) = some D := by
  obtain ⟨h1, h2⟩ := takeWhile_digits_of_append D ('小' :: '时' :: R) hD
    (fun c hc => by
      simp only [List.head?_cons, Option.some.injEq] at hc
      subst hc; rfl)
  simp only [hourFrom, h1, h2]
  rw [if_neg hne, take2_cons, if_pos rfl]

theorem minFrom_marker (D R : List Char) (hne : D ≠ [])
    (hD : ∀ c ∈ D, c.isDigit = true) :
    minFrom (D ++ '分' :: R) = some D := by
  obtain ⟨h1, h2⟩ := takeWhile_digits_of_append D ('分' :: R) hD
    (fun c hc => by
      simp only [List.head?_cons, Option.some.injEq] at hc
      subst hc; rfl)
  simp only [minFrom, h1, h2]
  rw [if_neg hne, take1_cons, if_pos rfl]

theorem hourFrom_dec_marker (D F R : List Char) (hDne : D ≠ []) (hFne : F ≠ [])
    (hD : ∀ c ∈ D, c.isDigit = true) (hF : ∀ c ∈ F, c.isDigit = true) :
    hourFrom (D ++ '.' :: (F ++ '小' :: '时' :: R)) = some (D ++ '.' :: F) := by
  obtain ⟨h1, h2⟩ := takeWhile_digits_of_append D ('.' :: (F ++ '小' :: '时' :: R)) hD
    (fun c hc => by
      simp only [List.head?_cons, Option.some.injEq] at hc
      subst hc; rfl)
  obtain ⟨hf1, hf2⟩ := takeWhile_digits_of_append F ('小' :: '时' :: R) hF
    (fun c hc => by
      simp only [List.head?_cons, Option.some.injEq] at hc
      subst hc; rfl)
  simp only [hourFrom, h1, h2]
  rw [if_neg hDne, List.take_succ_cons]
  rw [if_neg (by intro h; injection h with hh _; exact absurd hh (by decide))]
  rw [List.head?_cons, if_pos rfl]
  simp only [List.tail_cons, hf1, hf2, take2_cons]
  rw [if_pos ⟨hFne, trivial⟩]

theorem searchHour_cons (c : Char) (rest : List Char)
    (h : hourFrom (c :: rest) = none) :
    searchHour (c :: rest) = searchHour rest := by
  simp only [searchHour, h]

theorem searchMin_cons (c : Char) (rest : List Char)
    (h : minFrom (c :: rest) = none) :
    searchMin (c :: rest) = searchMin rest := by
  simp only [searchMin, h]

theorem searchHour_marker (D R : List Char) (hne : D ≠ [])
    (hD : ∀ c ∈ D, c.isDigit = true) :
    searchHour (D ++ '小' :: '时' :: R) = some D := by
  rcases D with _ | ⟨d, D'⟩
  · exact absurd rfl hne
  · have hm := hourFrom_marker (d :: D') R hne hD
    rw [List.cons_append] at hm ⊢
    simp only [searchHour, hm]

theorem searchMin_marker (D R : List Char) (hne : D ≠ [])
    (hD : ∀ c ∈ D, c.isDigit = true) :
    searchMin (D ++ '分' :: R) = some D := by
  rcases D with _ | ⟨d, D'⟩
  · exact absurd rfl hne
  · have hm := minFrom_marker (d :: D') R hne hD
    rw [List.cons_append] at hm ⊢
    simp only [searchMin, hm]

theorem searchHour_dec_marker (D F R : List Char) (hDne : D ≠ []) (hFne : F ≠ [])
    (hD : ∀ c ∈ D, c.isDigit = true) (hF : ∀ c ∈ F, c.isDigit = true) :
    searchHour (D ++ '.' :: (F ++ '小' :: '时' :: R)) = some (D ++ '.' :: F) := by
  rcases D with _ | ⟨d, D'⟩
  · exact absurd rfl hDne
  · have hm := hourFrom_dec_marker (d :: D') F R hDne hFne hD hF
    rw [List.cons_append] at hm ⊢
    simp only [searchHour, hm]

theorem searchHour_skip (D rest : List Char)
    (hD : ∀ c ∈ D, c.isDigit = true)
    (hr : ∀ c, rest.head? = some c → c.isDigit = false)
    (h1 : rest.take 2 ≠ ['小', '时'])
    (h2 : rest.head? ≠ some '.') :
    searchHour (D ++ rest) = searchHour rest := by
  induction D with
  | nil => rw [List.nil_append]
  | cons d D' ih =>
    have hD' : ∀ c ∈ D', c.isDigit = true := fun c hc => hD c (List.mem_cons_of_mem _ hc)
    have hdrop : ((d :: D') ++ rest).dropWhile Char.isDigit = rest :=
      (takeWhile_digits_of_append (d :: D') rest hD hr).2
    have hnone : hourFrom ((d :: D') ++ rest) = none := by
      apply hourFrom_none
      · rw [hdrop]; exact h1
      · rw [hdrop]; exact h2
    rw [List.cons_append] at hnone ⊢
    rw [searchHour_cons _ _ hnone]
    exact ih hD'

theorem searchMin_skip (D rest : List Char)
    (hD : ∀ c ∈ D, c.isDigit = true)
    (hr : ∀ c, rest.head? = some c → c.isDigit = false)
    (h1 : rest.take 1 ≠ ['分']) :
    searchMin (D ++ rest) = searchMin rest := by
  induction D with
  | nil => rw [List.nil_append]
  | cons d D' ih =>
    have hD' : ∀ c ∈ D', c.isDigit = true := fun c hc => hD c (List.mem_cons_of_mem _ hc)
    have hdrop : ((d :: D') ++ rest).dropWhile Char.isDigit = rest :=
      (takeWhile_digits_of_append (d :: D') rest hD hr).2
    have hnone : minFrom ((d :: D') ++ rest) = none := by
      apply minFrom_none
      rw [hdrop]; exact h1
    rw [List.cons_append] at hnone ⊢
    rw [searchMin_cons _ _ hnone]
    exact ih hD'

theorem searchHour_all_digits (D : List Char) (hD : ∀ c ∈ D, c.isDigit = true) :
    searchHour D = none := by
  induction D with
  | nil => rfl
  | cons d D' ih =>
    have hD' : ∀ c ∈ D', c.isDigit = true := fun c hc => hD c (List.mem_cons_of_mem _ hc)
    have hdrop : (d :: D').dropWhile Char.isDigit = [] := (takeWhile_digits_self _ hD).2
    have hnone : hourFrom (d :: D') = none := by
      apply hourFrom_none
      · rw [hdrop]; decide
      · rw [hdrop]; decide
    rw [searchHour_cons _ _ hnone]
    exact ih hD'

theorem searchMin_all_digits (D : List Char) (hD : ∀ c ∈ D, c.isDigit = true) :
    searchMin D = none := by
  induction D with
  | nil => rfl
  | cons d D' ih =>
    have hD' : ∀ c ∈ D', c.isDigit = true := fun c hc => hD c (List.mem_cons_of_mem _ hc)
    have hdrop : (d :: D').dropWhile Char.isDigit = [] := (takeWhile_digits_self _ hD).2
    have hnone : minFrom (d :: D') = none := by
      apply minFrom_none
      rw [hdrop]; decide
    rw [searchMin_cons _ _ hnone]
    exact ih hD'

theorem searchHour_no_digit (cs : List Char) (h : ∀ c ∈ cs, c.isDigit = false) :
    searchHour cs = none := by
  induction cs with
  | nil => rfl
  | cons c rest ih =>
    have hc := h c (List.mem_cons_self _ _)
    have hnone : hourFrom (c :: rest) = none :=
      hourFrom_take_nil _ (takeWhile_nil_not_digit c rest hc)
    rw [searchHour_cons _ _ hnone]
    exact ih (fun x hx => h x (List.mem_cons_of_mem _ hx))

theorem searchMin_no_digit (cs : List Char) (h : ∀ c ∈ cs, c.isDigit = false) :
    searchMin cs = none := by
  induction cs with
  | nil => rfl
  | cons c rest ih =>
    have hc := h c (List.mem_cons_self _ _)
    have hnone : minFrom (c :: rest) = none :=
      minFrom_take_nil _ (takeWhile_nil_not_digit c rest hc)
    rw [searchMin_cons _ _ hnone]
    exact ih (fun x hx => h x (List.mem_cons_of_mem _ hx))

theorem parse_eval (cs : List Char) (hcs : cs ≠ []) :
    parseDurationToMinutes (some (String.mk cs)) =
      (let m2 : Rat := ((searchHour cs).elim 0 (fun g => parseFloatQ g * 60))
        + ((searchMin cs).elim 0 (fun d => (natVal d : Rat)));
      if m2 = 0 ∧ cs.all Char.isDigit = true then (natVal cs : Rat) else m2) := by
  simp only [parseDurationToMinutes]
  rw [if_neg (mk_ne_empty cs hcs), toList_mk]
  cases searchHour cs <;> cases searchMin cs <;> rfl

theorem all_digits_false_of_mem (cs : List Char) (c : Char) (hc : c ∈ cs)
    (hnd : c.isDigit = false) : cs.all Char.isDigit = false := by
  cases h : cs.all Char.isDigit
  · rfl
  · have := List.all_eq_true.mp h c hc
    rw [hnd] at this
    exact absurd this (by decide)

end ParserLemmas

section ClaimC7

/-- C7: the duration parser maps "1.5小时" to 90, "40分钟" to 40 and the
absent/empty string to 0; a decimal or integer number followed by the
hour marker contributes sixty times its value, an integer followed by
the minute marker contributes its value, the two contributions sum when
both occur, a bare digit string is taken as literal minutes, and a
digit-free string yields 0. -/
theorem c7_duration_values :
    parseDurationToMinutes (some "1.5小时") = 90
    ∧ parseDurationToMinutes (some "40分钟") = 40
    ∧ parseDurationToMinutes (some "") = 0
    ∧ parseDurationToMinutes none = 0
    ∧ (∀ D F : List Char, D ≠ [] → F ≠ [] →
        (∀ c ∈ D, c.isDigit = true) → (∀ c ∈ F, c.isDigit = true) →
        parseDurationToMinutes (some (String.mk (D ++ '.' :: (F ++ ['小', '时']))))
          = ((natVal D : Rat) + (natVal F : Rat) / (10 : Rat) ^ F.length) * 60)
    ∧ (∀ H : List Char, H ≠ [] → (∀ c ∈ H, c.isDigit = true) →
        parseDurationToMinutes (some (String.mk (H ++ ['小', '时'])))
          = (natVal H : Rat) * 60)
    ∧ (∀ M : List Char, M ≠ [] → (∀ c ∈ M, c.isDigit = true) →
        parseDurationToMinutes (some (String.mk (M ++ ['分'])))
          = (natVal M : Rat))
    ∧ (∀ H M : List Char, H ≠ [] → M ≠ [] →
        (∀ c ∈ H, c.isDigit = true) → (∀ c ∈ M, c.isDigit = true) →
        parseDurationToMinutes (some (String.mk (H ++ '小' :: '时' :: (M ++ ['分']))))
          = (natVal H : Rat) * 60 + (natVal M : Rat))
    ∧ (∀ D : List Char, D ≠ [] → (∀ c ∈ D, c.isDigit = true) →
        parseDurationToMinutes (some (String.mk D)) = (natVal D : Rat))
    ∧ (∀ s : String, (∀ c ∈ s.toList, c.isDigit = false) →
        parseDurationToMinutes (some s) = 0) := by
  refine ⟨by decide, by decide, by decide, rfl, ?_, ?_, ?_, ?_, ?_, ?_⟩
  · intro D F hDne hFne hD hF
    have hcs : D ++ '.' :: (F ++ ['小', '时']) ≠ [] := by
      rcases D with _ | ⟨d, D'⟩
      · exact absurd rfl hDne
      · simp
    have hmin : searchMin (D ++ '.' :: (F ++ ['小', '时'])) = none := by
      rw [searchMin_skip D ('.' :: (F ++ ['小', '时'])) hD
        (fun c hc => by
          simp only [List.head?_cons, Option.some.injEq] at hc
          subst hc; rfl)
        (by rw [take1_cons]; decide)]
      rw [searchMin_cons _ _ (minFrom_none_head '.' _ (by decide) (by decide))]
      rw [searchMin_skip F ['小', '时'] hF
        (fun c hc => by
          simp only [List.head?_cons, Option.some.injEq] at hc
          subst hc; rfl)
        (by decide)]
      decide
    rw [parse_eval _ hcs, searchHour_dec_marker D F [] hDne hFne hD hF, hmin]
    simp only [Option.elim]
    rw [all_digits_false_of_mem _ '小' (by simp) (by decide)]
    rw [if_neg (fun hc => Bool.false_ne_true hc.2)]
    rw [parseFloatQ_dec D F hD hF, add_zero]
  · intro H hne hH
    have hcs : H ++ ['小', '时'] ≠ [] := by
      rcases H with _ | ⟨d, D'⟩
      · exact absurd rfl hne
      · simp
    have hmin : searchMin (H ++ ['小', '时']) = none := by
      rw [searchMin_skip H ['小', '时'] hH
        (fun c hc => by
          simp only [List.head?_cons, Option.some.injEq] at hc
          subst hc; rfl)
        (by decide)]
      decide
    rw [parse_eval _ hcs, searchHour_marker H [] hne hH, hmin]
    simp only [Option.elim]
    rw [all_digits_false_of_mem _ '小' (by simp) (by decide)]
    rw [if_neg (fun hc => Bool.false_ne_true hc.2)]
    rw [parseFloatQ_digits H hH, add_zero]
  · intro M hne hM
    have hcs : M ++ ['分'] ≠ [] := by
      rcases M with _ | ⟨d, D'⟩
      · exact absurd rfl hne
      · simp
    have hhour : searchHour (M ++ ['分']) = none := by
      rw [searchHour_skip M ['分'] hM
        (fun c hc => by
          simp only [List.head?_cons, Option.some.injEq] at hc
          subst hc; rfl)
        (by decide) (by decide)]
      decide
    rw [parse_eval _ hcs, searchMin_marker M [] hne hM, hhour]
    simp only [Option.elim]
    rw [all_digits_false_of_mem _ '分' (by simp) (by decide)]
    rw [if_neg (fun hc => Bool.false_ne_true hc.2)]
    rw [zero_add]
  · intro H M hHne hMne hH hM
    have hcs : H ++ '小' :: '时' :: (M ++ ['分']) ≠ [] := by
      rcases H with _ | ⟨d, D'⟩
      · exact absurd rfl hHne
      · simp
    rw [parse_eval _ hcs, searchHour_marker H (M ++ ['分']) hHne hH]
    have hmin2 : searchMin (H ++ '小' :: '时' :: (M ++ ['分'])) = some M := by
      rw [searchMin_skip H ('小' :: '时' :: (M ++ ['分'])) hH
        (fun c hc => by
          simp only [List.head?_cons, Option.some.injEq] at hc
          subst hc; rfl)
        (by rw [take1_cons]; decide)]
      rw [searchMin_cons _ _ (minFrom_none_head '小' _ (by decide) (by decide))]
      rw [searchMin_cons _ _ (minFrom_none_head '时' _ (by decide) (by decide))]
      exact searchMin_marker M [] hMne hM
    rw [hmin2]
    simp only [Option.elim]
    rw [all_digits_false_of_mem _ '小' (by simp) (by decide)]
    rw [if_neg (fun hc => Bool.false_ne_true hc.2)]
    rw [parseFloatQ_digits H hH]
  · intro D hne hD
    rw [parse_eval _ hne, searchHour_all_digits D hD, searchMin_all_digits D hD]
    simp only [Option.elim]
    rw [if_pos ⟨by norm_num, List.all_eq_true.mpr hD⟩]
  · intro s h
    by_cases hse : s = ""
    · subst hse; decide
    · simp only [parseDurationToMinutes]
      rw [if_neg hse, searchHour_no_digit _ h, searchMin_no_digit _ h]
      show (if ((0 : Rat) + 0 = 0 ∧ s.toList.all Char.isDigit = true)
          then (natVal s.toList : Rat) else (0 : Rat) + 0) = 0
      cases hall : s.toList.all Char.isDigit
      · rw [if_neg (fun hc => Bool.false_ne_true hc.2)]
        norm_num
      · rw [if_pos ⟨by norm_num, rfl⟩]
        have hnil : s.toList = [] := by
          rcases hl : s.toList with _ | ⟨c, cs'⟩
          · rfl
          · have h1 := h c (by rw [hl]; exact List.mem_cons_self _ _)
            have h2 := List.all_eq_true.mp hall c (by rw [hl]; exact List.mem_cons_self _ _)
            rw [h1] at h2
            exact absurd h2 (by decide)
        rw [hnil]
        simp [natVal]

/-- Witness for C7: the decimal-hour clause applied at "2.5小时". -/
theorem c7_duration_values_witness :
    ((['2'] : List Char) ≠ [] ∧ (['5'] : List Char) ≠ []
      ∧ (∀ c ∈ (['2'] : List Char), c.isDigit = true)
      ∧ (∀ c ∈ (['5'] : List Char), c.isDigit = true))
    ∧ parseDurationToMinutes (some (String.mk (['2'] ++ '.' :: (['5'] ++ ['小', '时']))))
        = ((natVal ['2'] : Rat) + (natVal ['5'] : Rat) / (10 : Rat) ^ (['5'] : List Char).length) * 60 :=
  ⟨⟨by decide, by decide, by decide, by decide⟩,
    c7_duration_values.2.2.2.2.1 ['2'] ['5'] (by decide) (by decide) (by decide) (by decide)⟩

end ClaimC7

section ClaimsC5C6

/-- C5 counterexample: "无效停留" is unparsable (it contains no digits),
yet the timeline assigns it a stay of 0 minutes, not the claimed default
30: the single node's departure equals its arrival. -/
theorem c5_counterexample :
    parseDurationToMinutes (some "无效停留") = 0
    ∧ nodeTimeline ⟨"t", [⟨1, "a", "", NodeType.OTHER, some "无效停留"⟩], []⟩
        = [(1, "09:00", "09:00")]
    ∧ nodeTimeline ⟨"t", [⟨1, "a", "", NodeType.OTHER, some "无效停留"⟩], []⟩
        ≠ [(1, "09:00", "09:30")] :=
  ⟨by decide, by decide, by decide⟩

/-- C5 (amended): the 30-minute default stay applies exactly when the
estimated-stay string is absent or empty — then departure = arrival +
30 on the clock trace; and the concrete single-node timeline from 540
reads arrival "09:00", departure "09:30". -/
theorem c5_default_stay :
    (∀ (edges : List RouteEdge) (prev : Option RouteNode) (cur : Rat)
        (node : RouteNode) (rest : List RouteNode),
        node.estimatedStay = none ∨ node.estimatedStay = some "" →
        ∃ t1 : Rat,
          clockTrace edges prev cur (node :: rest)
            = (node.id, t1, t1 + 30)
              :: clockTrace edges (some node) (t1 + 30) rest)
    ∧ nodeTimeline ⟨"t", [⟨1, "a", "", NodeType.OTHER, none⟩], []⟩
        = [(1, "09:00", "09:30")] := by
  constructor
  · intro edges prev cur node rest h
    have hstay : stayOf node = 30 := by
      rcases h with h | h
      · simp only [stayOf]
        rw [h]
        decide
      · simp only [stayOf]
        rw [h]
        decide
    refine ⟨cur + travelOf edges prev node, ?_⟩
    rw [clockTrace_cons, hstay]
  · decide

/-- Witness for C5: the default-stay clause applied to a stay-free node. -/
theorem c5_default_stay_witness :
    ((⟨1, "a", "", NodeType.OTHER, none⟩ : RouteNode).estimatedStay = none
      ∨ (⟨1, "a", "", NodeType.OTHER, none⟩ : RouteNode).estimatedStay = some "")
    ∧ ∃ t1 : Rat,
        clockTrace [] none 540 [⟨1, "a", "", NodeType.OTHER, none⟩]
          = ((⟨1, "a", "", NodeType.OTHER, none⟩ : RouteNode).id, t1, t1 + 30)
            :: clockTrace [] (some ⟨1, "a", "", NodeType.OTHER, none⟩) (t1 + 30) [] :=
  ⟨Or.inl rfl,
    c5_default_stay.1 [] none 540 ⟨1, "a", "", NodeType.OTHER, none⟩ [] (Or.inl rfl)⟩

/-- C6: the timeline formats the clock trace; no travel advance is
applied before the first node's arrival; between adjacent timeline
entries the clock advance equals the travel of the matching edge, which
is the parsed duration when an edge with from = prev.id and to = cur.id
is found and exactly 15 when none exists. -/
theorem c6_travel_gap :
    (∀ plan : RoutePlan,
        nodeTimeline plan
          = (clockTrace plan.edges none (9 * 60)
              (reorderNodes plan.nodes plan.edges)).map
              (fun x => (x.1, formatTime x.2.1, formatTime x.2.2)))
    ∧ (∀ (edges : List RouteEdge) (cur : Rat) (node : RouteNode)
        (rest : List RouteNode),
        (clockTrace edges none cur (node :: rest)).head?
          = some (node.id, cur, cur + stayOf node))
    ∧ (∀ (edges : List RouteEdge) (ns : List RouteNode) (cur : Rat)
        (i : Nat) (p q : Int × Rat × Rat),
        (clockTrace edges none cur ns).get? i = some p →
        (clockTrace edges none cur ns).get? (i + 1) = some q →
        ∃ prevN curN, ns.get? i = some prevN ∧ ns.get? (i + 1) = some curN ∧
          p.1 = prevN.id ∧ q.1 = curN.id ∧
          q.2.1 = p.2.2 + travelOf edges (some prevN) curN)
    ∧ (∀ (edges : List RouteEdge) (p c : RouteNode) (e : RouteEdge),
        edges.find? (fun e =>
          decide (e.«from» = p.id) && decide (e.«to» = c.id)) = some e →
        travelOf edges (some p) c = parseDurationToMinutes (some e.duration))
    ∧ (∀ (edges : List RouteEdge) (p c : RouteNode),
        edges.find? (fun e =>
          decide (e.«from» = p.id) && decide (e.«to» = c.id)) = none →
        travelOf edges (some p) c = 15) := by
  refine ⟨?_, ?_, ?_, ?_, ?_⟩
  · intro plan
    exact timelineGo_eq_trace plan.edges (reorderNodes plan.nodes plan.edges)
      none (9 * 60)
  · intro edges cur node rest
    exact clockTrace_first edges cur node rest
  · intro edges ns cur i p q hp hq
    exact clockTrace_step edges ns none cur i p q hp hq
  · intro edges p c e h
    simp only [travelOf]
    rw [h]
  · intro edges p c h
    simp only [travelOf]
    rw [h]

/-- Witness for C6: the adjacent-pair clause applied to a concrete
two-node trace with no edges (default gap 15). -/
theorem c6_travel_gap_witness :
    ((clockTrace [] none 0 [⟨1, "a", "", NodeType.OTHER, none⟩,
        ⟨2, "b", "", NodeType.OTHER, none⟩]).get? 0
        = some ((1 : Int), (0 : Rat), (30 : Rat))
      ∧ (clockTrace [] none 0 [⟨1, "a", "", NodeType.OTHER, none⟩,
        ⟨2, "b", "", NodeType.OTHER, none⟩]).get? 1
        = some ((2 : Int), (45 : Rat), (75 : Rat)))
    ∧ ∃ prevN curN,
        ([⟨1, "a", "", NodeType.OTHER, none⟩,
          ⟨2, "b", "", NodeType.OTHER, none⟩] : List RouteNode).get? 0
            = some prevN
        ∧ ([⟨1, "a", "", NodeType.OTHER, none⟩,
          ⟨2, "b", "", NodeType.OTHER, none⟩] : List RouteNode).get? 1
            = some curN
        ∧ ((1 : Int), (0 : Rat), (30 : Rat)).1 = prevN.id
        ∧ ((2 : Int), (45 : Rat), (75 : Rat)).1 = curN.id
        ∧ ((2 : Int), (45 : Rat), (75 : Rat)).2.1
            = ((1 : Int), (0 : Rat), (30 : Rat)).2.2
              + travelOf [] (some prevN) curN :=
  ⟨⟨by decide, by decide⟩,
    c6_travel_gap.2.2.1 [] [⟨1, "a", "", NodeType.OTHER, none⟩,
      ⟨2, "b", "", NodeType.OTHER, none⟩] 0 0 (1, 0, 30) (2, 45, 75)
      (by decide) (by decide)⟩

end ClaimsC5C6

section TimelineSanity

example : parseDurationToMinutes (some "1.5小时") = 90 := by decide
example : parseDurationToMinutes (some "40分钟") = 40 := by decide
example : parseDurationToMinutes (some "") = 0 := by decide
example : parseDurationToMinutes (some "30分钟") = 30 := by decide
example : parseDurationToMinutes (some "无效停留") = 0 := by decide
example : parseDurationToMinutes (some "45") = 45 := by decide
example : parseDurationToMinutes (some "1小时30分") = 90 := by decide
example : formatTime 540 = "09:00" := by decide
example : formatTime 570 = "09:30" := by decide
example : nodeTimeline ⟨"t", [⟨1, "a", "", .OTHER, none⟩], []⟩
    = [(1, "09:00", "09:30")] := by decide

end TimelineSanity

section Clusterer

/-- Zone classification on the safety map (`'RED' | 'GREEN'`). -/
inductive ZoneType
  | RED
  | GREEN
deriving DecidableEq, Repr

/-- `MapZone` from the data model: string id, city, name, type,
description, percentage coordinates, optional user-generated flag. -/
structure MapZone where
  id : String
  city : String
  name : String
  type : ZoneType
  description : String
  coordinates : Rat × Rat
  isUserGenerated : Option Bool
deriving DecidableEq, Repr

/-- The neighbour test of the clustering loop:
`Math.sqrt(dx*dx + dy*dy) < CLUSTER_THRESHOLD` with threshold 8.  Both
sides are nonnegative, so the comparison is exactly `dx² + dy² < 64`,
the square-root-free form embedded here in exact rational arithmetic. -/
def near (a b : MapZone) : Bool :=
  decide ((a.coordinates.1 - b.coordinates.1) * (a.coordinates.1 - b.coordinates.1)
    + (a.coordinates.2 - b.coordinates.2) * (a.coordinates.2 - b.coordinates.2)
    < 64)

/-- An entry of `mapItems`: a singleton zone, or a cluster with its
member list, averaged centre and synthesised id. -/
inductive MapItem
  | single (zone : MapZone)
  | cluster (zones : List MapZone) (x y : Rat) (id : String)
deriving DecidableEq, Repr

/-- The zones an item accounts for. -/
def membersOf : MapItem → List MapZone
  | .single z => [z]
  | .cluster zs _ _ _ => zs

/-- `reduce((sum, z) => sum + z.coordinates.x, 0) / length`. -/
def avgX (zs : List MapZone) : Rat :=
  (zs.foldl (fun s z => s + z.coordinates.1) 0) / zs.length

/-- `reduce((sum, z) => sum + z.coordinates.y, 0) / length`. -/
def avgY (zs : List MapZone) : Rat :=
  (zs.foldl (fun s z => s + z.coordinates.2) 0) / zs.length

/-- The `while (processingZones.length > 0)` clustering loop.  The
worklist is the reversed zone array: `pop()` takes the array's last
element, i.e. the head of the reversed list, and the descending-index
neighbour scan visits the remaining elements exactly once in that same
reversed order, so it is a `filter` over the list tail.  Each pass
removes at least the popped element, so a fuel equal to the list length
runs the loop to completion. -/
def clusterLoop : Nat → List MapZone → List MapItem
  | 0, _ => []
  | _, [] => []
  | fuel + 1, current :: rest =>
    (if (current :: rest.filter (fun z => near current z)).length = 1
      then MapItem.single current
      else MapItem.cluster (current :: rest.filter (fun z => near current z))
        (avgX (current :: rest.filter (fun z => near current z)))
        (avgY (current :: rest.filter (fun z => near current z)))
        ("cluster-" ++ current.id ++ "-"
          ++ toString (current :: rest.filter (fun z => near current z)).length))
      :: clusterLoop fuel (rest.filter (fun z => !near current z))

/-- The `mapItems` clustering of SafetyMap over a zone list. -/
def mapItems (zs : List MapZone) : List MapItem :=
  clusterLoop zs.length zs.reverse

theorem clusterLoop_cons (fuel : Nat) (current : MapZone) (rest : List MapZone) :
    clusterLoop (fuel + 1) (current :: rest)
      = (if (current :: rest.filter (fun z => near current z)).length = 1
          then MapItem.single current
          else MapItem.cluster (current :: rest.filter (fun z => near current z))
            (avgX (current :: rest.filter (fun z => near current z)))
            (avgY (current :: rest.filter (fun z => near current z)))
            ("cluster-" ++ current.id ++ "-"
              ++ toString (current :: rest.filter (fun z => near current z)).length))
        :: clusterLoop fuel (rest.filter (fun z => !near current z)) := rfl

theorem clusterLoop_perm (fuel : Nat) :
    ∀ zs : List MapZone, zs.length ≤ fuel →
      (((clusterLoop fuel zs).map membersOf).flatten).Perm zs := by
  induction fuel with
  | zero =>
    intro zs h
    have hz : zs = [] := List.eq_nil_of_length_eq_zero (Nat.le_zero.mp h)
    subst hz
    exact List.Perm.refl _
  | succ fuel ih =>
    intro zs h
    cases zs with
    | nil => exact List.Perm.refl _
    | cons current rest =>
      have hlen : rest.length + 1 ≤ fuel + 1 := by
        have := h
        rw [List.length_cons] at this
        exact this
      have hle : (rest.filter (fun z => !near current z)).length ≤ fuel := by
        have h2 := List.length_filter_le (fun z => !near current z) rest
        omega
      have ihr := ih _ hle
      rw [clusterLoop_cons, List.map_cons, List.flatten_cons]
      by_cases hfil : rest.filter (fun z => near current z) = []
      · have hcond : (current :: rest.filter (fun z => near current z)).length = 1 := by
          rw [hfil]
          rfl
        rw [if_pos hcond]
        have hrem : rest.filter (fun z => !near current z) = rest := by
          apply List.filter_eq_self.mpr
          intro a ha
          have hnot := List.filter_eq_nil_iff.mp hfil a ha
          cases hb : near current a
          · rfl
          · exact absurd hb hnot
        rw [hrem] at ihr ⊢
        show ([current] ++ (List.map membersOf (clusterLoop fuel rest)).flatten).Perm
          (current :: rest)
        rw [List.singleton_append]
        exact List.Perm.cons current ihr
      · have hcond : ¬(current :: rest.filter (fun z => near current z)).length = 1 := by
          intro h1
          rw [List.length_cons] at h1
          exact hfil (List.eq_nil_of_length_eq_zero (by omega))
        rw [if_neg hcond]
        show ((current :: rest.filter (fun z => near current z))
            ++ ((clusterLoop fuel (rest.filter (fun z => !near current z))).map
              membersOf).flatten).Perm (current :: rest)
        rw [List.cons_append]
        apply List.Perm.cons
        exact (List.Perm.append_left _ ihr).trans
          (List.filter_append_perm (fun z => near current z) rest)

end Clusterer

section ClaimC8

private def cz1 : MapZone := ⟨"a", "c", "p0", ZoneType.GREEN, "", (0, 0), none⟩

private def cz2 : MapZone := ⟨"b", "c", "p1", ZoneType.GREEN, "", (1, 1), none⟩

private def cz3 : MapZone := ⟨"c", "c", "p2", ZoneType.GREEN, "", (20, 20), none⟩

/-- C8: the spatial clusterer partitions its input — the members of the
output items are a permutation of the input zones, so every input item
appears in exactly one output entry; the neighbour test is Euclidean
distance strictly below the threshold 8 (in squared form dx² + dy² <
64); and on the three points (0,0), (1,1), (20,20) it leaves (20,20) a
singleton and groups (1,1) and (0,0) into one two-member cluster
centred at (0.5, 0.5). -/
theorem c8_cluster_partition :
    (∀ zs : List MapZone, (((mapItems zs).map membersOf).flatten).Perm zs)
    ∧ (∀ a b : MapZone, near a b = true ↔
        (a.coordinates.1 - b.coordinates.1) * (a.coordinates.1 - b.coordinates.1)
          + (a.coordinates.2 - b.coordinates.2) * (a.coordinates.2 - b.coordinates.2)
          < 64)
    ∧ mapItems [cz1, cz2, cz3]
        = [MapItem.single cz3,
           MapItem.cluster [cz2, cz1] (1/2) (1/2) "cluster-b-2"] := by
  refine ⟨?_, ?_, ?_⟩
  · intro zs
    have hp := clusterLoop_perm zs.length zs.reverse (by rw [List.length_reverse])
    exact hp.trans (List.reverse_perm zs)
  · intro a b
    exact ⟨of_decide_eq_true, decide_eq_true⟩
  · decide

end ClaimC8

section SanityChecks

private def nA : RouteNode := ⟨1, "a", "", .OTHER, none⟩
private def nB : RouteNode := ⟨2, "b", "", .OTHER, none⟩
private def nC : RouteNode := ⟨3, "c", "", .OTHER, none⟩

private def edge (f t : Int) : RouteEdge := ⟨f, t, .WALK, "", "", none⟩

example : reorderNodes [nA, nB, nC] [] = [nA, nB, nC] := by decide
example : reorderNodes [nA, nB, nC] [edge 2 1] = [nB, nC, nA] := by decide
example : reorderNodes [nA, nB] [edge 1 2, edge 2 1] = [nA, nB] := by decide
example : reorderNodes [nA, nB] [edge 99 1] = [nB, nA] := by decide
example : reorderNodes [⟨1, "a", "", .OTHER, none⟩, ⟨1, "b", "", .OTHER, none⟩] []
    = [⟨1, "b", "", .OTHER, none⟩] := by decide

end SanityChecks

end Golue
